import Mathlib

/-!
# Verification of the svelte-injector core (`src/lib/SvelteInjector.ts`)

A shallow embedding of the component lifecycle and synchronization engine:
the props codec (`stringify` / `parseProps` / `encodeProps` / `decodeProps`),
the component registry (`registerComponent` / `findComponentByName`), the
lifecycle operations (`create`, `hydrate`, `destroyElement`, `setProps`,
`setToRender`) acting on the shared registry store, and the content-watcher
change predicate of `createDataObserver`.

JavaScript values are embedded as follows: JSON-representable values become
the inductive `Json` (numbers restricted to integers); `undefined` is
modelled by `Option.none`; `NaN` indices by `Option.none : Option Int`;
DOM nodes are identified by natural-number ids with their relevant
attributes in a `NodeData` record; object identity of managed elements is
modelled by a heap of element ids, so that JavaScript reference equality
(`indexOf`) becomes id equality.
-/

/-- JSON values as produced by `JSON.parse`: the model for the prop objects
handled by the codec.  Numbers are modelled as integers. -/
inductive Json where
| null : Json
| bool (b : Bool) : Json
| num (n : Int) : Json
| str (s : String) : Json
| arr (xs : List Json) : Json
| obj (kvs : List (String × Json)) : Json
deriving Repr

mutual

/-- Structural equality test on `Json` (deep equality of parsed values). -/
def Json.beq : Json → Json → Bool
| .null, .null => true
| .bool a, .bool b => a == b
| .num a, .num b => a == b
| .str a, .str b => a == b
| .arr xs, .arr ys => Json.beqList xs ys
| .obj xs, .obj ys => Json.beqObj xs ys
| _, _ => false

/-- Structural equality test on lists of `Json`. -/
def Json.beqList : List Json → List Json → Bool
| [], [] => true
| x :: xs, y :: ys => Json.beq x y && Json.beqList xs ys
| _, _ => false

/-- Structural equality test on key/value lists. -/
def Json.beqObj : List (String × Json) → List (String × Json) → Bool
| [], [] => true
| (k, v) :: xs, (l, w) :: ys => k == l && Json.beq v w && Json.beqObj xs ys
| _, _ => false

end

/-- Soundness and completeness of the three mutual equality tests, by strong
induction on size. -/
theorem Json.beq_iff_all (N : Nat) :
    (∀ a b : Json, sizeOf a ≤ N → (Json.beq a b = true ↔ a = b)) ∧
    (∀ xs ys : List Json, sizeOf xs ≤ N → (Json.beqList xs ys = true ↔ xs = ys)) ∧
    (∀ kvs lws : List (String × Json), sizeOf kvs ≤ N →
      (Json.beqObj kvs lws = true ↔ kvs = lws)) := by
  induction N using Nat.strong_induction_on with
  | _ N ih =>
    refine ⟨?_, ?_, ?_⟩
    · intro a b ha
      cases a <;> cases b <;>
        simp_all [Json.beq, Json.beqList, Json.beqObj]
      case arr.arr xs ys =>
        have hs : sizeOf xs < N := by
          have := Json.arr.sizeOf_spec xs; omega
        exact (ih (sizeOf xs) hs).2.1 xs ys (le_refl _)
      case obj.obj xs ys =>
        have hs : sizeOf xs < N := by
          have := Json.obj.sizeOf_spec xs; omega
        exact (ih (sizeOf xs) hs).2.2 xs ys (le_refl _)
    · intro xs ys hx
      cases xs <;> cases ys <;>
        simp_all [Json.beqList]
      case cons.cons x xs y ys =>
        have h1 : sizeOf x < N := by
          have := List.cons.sizeOf_spec x xs; omega
        have h2 : sizeOf xs < N := by
          have := List.cons.sizeOf_spec x xs; omega
        rw [(ih (sizeOf x) h1).1 x y (le_refl _),
          (ih (sizeOf xs) h2).2.1 xs ys (le_refl _)]
    · intro kvs lws hk
      cases kvs with
      | nil => cases lws <;> simp [Json.beqObj]
      | cons kv kvs =>
        cases lws with
        | nil => simp [Json.beqObj]
        | cons lw lws =>
          obtain ⟨k, v⟩ := kv
          obtain ⟨l, w⟩ := lw
          have h1 : sizeOf v < N := by
            have := List.cons.sizeOf_spec (k, v) kvs
            have := Prod.mk.sizeOf_spec k v; omega
          have h2 : sizeOf kvs < N := by
            have := List.cons.sizeOf_spec (k, v) kvs; omega
          simp only [Json.beqObj, Bool.and_eq_true, beq_iff_eq,
            (ih (sizeOf v) h1).1 v w (le_refl _),
            (ih (sizeOf kvs) h2).2.2 kvs lws (le_refl _)]
          constructor
          · rintro ⟨⟨he, hv⟩, ht⟩; simp [he, hv, ht]
          · rintro ⟨h1, h2⟩; simp_all

instance : DecidableEq Json := fun a b =>
  decidable_of_iff (Json.beq a b = true) ((Json.beq_iff_all (sizeOf a)).1 a b (le_refl _))

/-! ## Decimal digits (used by `JSON.stringify` for numbers and by
`index.toString()` / `Number.parseInt` for element indices) -/

/-- The character for a single decimal digit value. -/
def digitChar (n : Nat) : Char :=
  Char.ofNat (48 + n)

/-- Decimal digits of a natural number, least significant first, with
structural fuel so the definition evaluates by kernel reduction. -/
def natDigitsRev : Nat → Nat → List Char
| 0, _ => []
| fuel + 1, n =>
  if n < 10 then [digitChar n]
  else digitChar (n % 10) :: natDigitsRev fuel (n / 10)

/-- Decimal representation of a natural number, as `String(n)` produces in
JS; `n + 1` units of fuel always suffice. -/
def natToChars (n : Nat) : List Char :=
  (natDigitsRev (n + 1) n).reverse

/-- Decimal representation of an integer, as `String(i)` produces in JS. -/
def intToChars (i : Int) : List Char :=
  if i < 0 then '-' :: natToChars i.natAbs else natToChars i.toNat

/-- Is the character a decimal digit? -/
def isDigitChar (c : Char) : Bool :=
  48 ≤ c.toNat && c.toNat ≤ 57

/-- Numeric value of a decimal digit character. -/
def digitVal (c : Char) : Nat :=
  c.toNat - 48

/-- Consume leading decimal digits, returning the accumulated value and the
rest.  `none` when no digit is present. -/
def parseDigits : List Char → Option Nat → Option (Nat × List Char)
| c :: cs, acc =>
    if isDigitChar c then
      parseDigits cs (some ((acc.getD 0) * 10 + digitVal c))
    else
      match acc with
      | some v => some (v, c :: cs)
      | none => none
| [], acc =>
    match acc with
    | some v => some (v, [])
    | none => none

/-! ## JSON whitespace and hexadecimal helpers -/

/-- JSON whitespace characters accepted by `JSON.parse`. -/
def isWsChar (c : Char) : Bool :=
  c = ' ' || c = '\t' || c = '\n' || c = '\r'

/-- Drop leading JSON whitespace. -/
def skipWs : List Char → List Char
| c :: cs => if isWsChar c then skipWs cs else c :: cs
| [] => []

/-- Lowercase hexadecimal digit for a value below 16, as emitted by
`JSON.stringify` in `\u00xx` escapes. -/
def hexDigitChar (n : Nat) : Char :=
  if n < 10 then Char.ofNat (48 + n) else Char.ofNat (87 + n)

/-- Value of a hexadecimal digit character (either case), `none` otherwise. -/
def hexVal (c : Char) : Option Nat :=
  if 48 ≤ c.toNat && c.toNat ≤ 57 then some (c.toNat - 48)
  else if 97 ≤ c.toNat && c.toNat ≤ 102 then some (c.toNat - 87)
  else if 65 ≤ c.toNat && c.toNat ≤ 70 then some (c.toNat - 55)
  else none

/-! ## String escaping, as performed by `JSON.stringify` on string values -/

/-- Escape of one character inside a JSON string literal (ECMA-262
QuoteJSONString): the two-character escapes for quote, backslash and the
usual control characters, `\u00xx` for other control characters, and the
character itself otherwise. -/
def escapeChar (c : Char) : List Char :=
  if c = '"' then ['\\', '"']
  else if c = '\\' then ['\\', '\\']
  else if c = Char.ofNat 8 then ['\\', 'b']
  else if c = Char.ofNat 12 then ['\\', 'f']
  else if c = '\n' then ['\\', 'n']
  else if c = '\r' then ['\\', 'r']
  else if c = '\t' then ['\\', 't']
  else if c.toNat < 32 then
    ['\\', 'u', '0', '0', hexDigitChar (c.toNat / 16), hexDigitChar (c.toNat % 16)]
  else [c]

/-- Escape a whole string body. -/
def escapeChars (s : List Char) : List Char :=
  s.flatMap escapeChar

/-- The character denoted by a single-character escape in a JSON string
literal, as accepted by `JSON.parse`. -/
def unescapeChar (e : Char) : Option Char :=
  if e = '"' then some '"'
  else if e = '\\' then some '\\'
  else if e = '/' then some '/'
  else if e = 'b' then some (Char.ofNat 8)
  else if e = 'f' then some (Char.ofNat 12)
  else if e = 'n' then some '\n'
  else if e = 'r' then some '\r'
  else if e = 't' then some '\t'
  else none

mutual

/-- Parse the body of a JSON string literal up to (and consuming) the closing
quote, returning the decoded characters and the rest of the input. -/
def parseStrChars : List Char → Option (List Char × List Char)
| [] => none
| c :: cs =>
  if c = '"' then some ([], cs)
  else if c = '\\' then parseEsc cs
  else if c.toNat < 32 then none
  else (parseStrChars cs).map fun p => (c :: p.1, p.2)

/-- Parse what follows a backslash inside a JSON string literal: a `\u`
escape with four hexadecimal digits, or a single-character escape. -/
def parseEsc : List Char → Option (List Char × List Char)
| 'u' :: h1 :: h2 :: h3 :: h4 :: cs3 =>
  match hexVal h1, hexVal h2, hexVal h3, hexVal h4 with
  | some a, some b, some c2, some d =>
    (parseStrChars cs3).map fun p => (Char.ofNat (((a * 16 + b) * 16 + c2) * 16 + d) :: p.1, p.2)
  | _, _, _, _ => none
| e :: cs2 =>
  match unescapeChar e with
  | some u => (parseStrChars cs2).map fun p => (u :: p.1, p.2)
  | none => none
| [] => none

end

/-! ## Rendering: `JSON.stringify(value, null, 2)`

`stringify` in the source fixes `replacer = null` and `space = 2`, so nested
values are laid out one per line, indented by two further spaces, with
`": "` between a key and its value. -/

/-- `n` spaces of indentation. -/
def spaces (n : Nat) : List Char :=
  List.replicate n ' '

mutual

/-- Characters produced by `JSON.stringify(v, null, 2)` when the current
indentation of nested items is `ind` spaces. -/
def renderChars : Json → Nat → List Char
| .null, _ => ['n', 'u', 'l', 'l']
| .bool true, _ => ['t', 'r', 'u', 'e']
| .bool false, _ => ['f', 'a', 'l', 's', 'e']
| .num n, _ => intToChars n
| .str s, _ => '"' :: (escapeChars s.data ++ ['"'])
| .arr [], _ => ['[', ']']
| .arr (x :: xs), ind =>
  '[' :: '\n' :: (renderItems (x :: xs) (ind + 2) ++ '\n' :: (spaces ind ++ [']']))
| .obj [], _ => ['{', '}']
| .obj (kv :: kvs), ind =>
  '{' :: '\n' :: (renderFields (kv :: kvs) (ind + 2) ++ '\n' :: (spaces ind ++ ['}']))

/-- Array items, each on its own line at indentation `ind`, separated by
commas. -/
def renderItems : List Json → Nat → List Char
| [], _ => []
| [x], ind => spaces ind ++ renderChars x ind
| x :: y :: xs, ind =>
  spaces ind ++ (renderChars x ind ++ ',' :: '\n' :: renderItems (y :: xs) ind)

/-- Object members, each on its own line at indentation `ind`, separated by
commas, with `": "` after the quoted key. -/
def renderFields : List (String × Json) → Nat → List Char
| [], _ => []
| [(k, v)], ind =>
  spaces ind ++ ('"' :: (escapeChars k.data ++ '"' :: ':' :: ' ' :: renderChars v ind))
| (k, v) :: kv :: kvs, ind =>
  spaces ind ++ ('"' :: (escapeChars k.data ++ '"' :: ':' :: ' ' ::
    (renderChars v ind ++ ',' :: '\n' :: renderFields (kv :: kvs) ind)))

end

/-! ## Parsing: `JSON.parse`

A recursive-descent parser over the character list, with explicit fuel for
the mutual value/items/fields recursion.  Numbers are restricted to the
integer grammar, matching the `Json` model. -/

/-- Strip an expected literal from the front of the input. -/
def stripLit : List Char → List Char → Option (List Char)
| [], l => some l
| p :: ps, c :: cs => if c = p then stripLit ps cs else none
| _ :: _, [] => none

mutual

/-- Parse one JSON value (after skipping leading whitespace), returning it
with the unconsumed rest. -/
def parseValue : Nat → List Char → Option (Json × List Char)
| 0, _ => none
| fuel + 1, cs =>
  match skipWs cs with
  | [] => none
  | c :: rest =>
    if c = 'n' then (stripLit ['u', 'l', 'l'] rest).map fun r => (.null, r)
    else if c = 't' then (stripLit ['r', 'u', 'e'] rest).map fun r => (.bool true, r)
    else if c = 'f' then (stripLit ['a', 'l', 's', 'e'] rest).map fun r => (.bool false, r)
    else if c = '"' then (parseStrChars rest).map fun p => (.str (String.mk p.1), p.2)
    else if c = '[' then
      match skipWs rest with
      | ']' :: r2 => some (.arr [], r2)
      | r2 => (parseItems fuel r2).map fun p => (.arr p.1, p.2)
    else if c = '{' then
      match skipWs rest with
      | '}' :: r2 => some (.obj [], r2)
      | r2 => (parseFields fuel r2).map fun p => (.obj p.1, p.2)
    else if c = '-' then (parseDigits rest none).map fun p => (.num (-(p.1 : Int)), p.2)
    else if isDigitChar c then (parseDigits (c :: rest) none).map fun p => (.num (p.1 : Int), p.2)
    else none

/-- Parse the non-empty item list of an array, consuming the closing
bracket. -/
def parseItems : Nat → List Char → Option (List Json × List Char)
| 0, _ => none
| fuel + 1, cs =>
  match parseValue fuel cs with
  | none => none
  | some (v, r) =>
    match skipWs r with
    | ',' :: r2 => (parseItems fuel r2).map fun p => (v :: p.1, p.2)
    | ']' :: r2 => some ([v], r2)
    | _ => none

/-- Parse the non-empty member list of an object, consuming the closing
brace. -/
def parseFields : Nat → List Char → Option (List (String × Json) × List Char)
| 0, _ => none
| fuel + 1, cs =>
  match skipWs cs with
  | '"' :: rest =>
    match parseStrChars rest with
    | none => none
    | some (k, r) =>
      match skipWs r with
      | ':' :: r2 =>
        match parseValue fuel r2 with
        | none => none
        | some (v, r3) =>
          match skipWs r3 with
          | ',' :: r4 => (parseFields fuel r4).map fun p => ((String.mk k, v) :: p.1, p.2)
          | '}' :: r4 => some ([(String.mk k, v)], r4)
          | _ => none
      | _ => none
  | _ => none

end

mutual

/-- Fuel that suffices to parse any rendering of `v` (established below). -/
def needV : Json → Nat
| .arr xs => 1 + needItems xs
| .obj kvs => 1 + needFields kvs
| _ => 1

/-- Fuel bound for an item list. -/
def needItems : List Json → Nat
| [] => 1
| x :: xs => 1 + needV x + needItems xs

/-- Fuel bound for a member list. -/
def needFields : List (String × Json) → Nat
| [] => 1
| (_, v) :: kvs => 1 + needV v + needFields kvs

end

/-! ## Support lemmas for the codec roundtrip -/

/-- Every character of `w` is JSON whitespace. -/
def AllWs (w : List Char) : Prop :=
  ∀ c ∈ w, isWsChar c = true

/-- The input does not begin with a decimal digit (so a preceding number
literal cannot be extended). -/
def DigitBoundary : List Char → Prop
| [] => True
| c :: _ => isDigitChar c = false

theorem skipWs_cons_of_not_ws {c : Char} (h : isWsChar c = false) (l : List Char) :
    skipWs (c :: l) = c :: l := by
  simp [skipWs, h]

theorem skipWs_append_of_ws {w : List Char} (h : AllWs w) (l : List Char) :
    skipWs (w ++ l) = skipWs l := by
  induction w with
  | nil => simp
  | cons c w ih =>
    have hc : isWsChar c = true := h c (List.mem_cons_self c w)
    have hw : AllWs w := fun d hd => h d (List.mem_cons_of_mem c hd)
    simp [skipWs, hc, ih hw]

theorem skipWs_idem (l : List Char) : skipWs (skipWs l) = skipWs l := by
  induction l with
  | nil => simp [skipWs]
  | cons c cs ih =>
    by_cases h : isWsChar c = true
    · simp [skipWs, h, ih]
    · simp [skipWs, h]

theorem allWs_spaces (n : Nat) : AllWs (spaces n) := by
  intro c hc
  have := List.eq_of_mem_replicate hc
  simp [this, isWsChar]

theorem allWs_append {w1 w2 : List Char} (h1 : AllWs w1) (h2 : AllWs w2) :
    AllWs (w1 ++ w2) := by
  intro c hc
  rcases List.mem_append.mp hc with h | h
  · exact h1 c h
  · exact h2 c h

theorem allWs_nil : AllWs [] := by
  intro c hc; cases hc

theorem allWs_newline : AllWs ['\n'] := by
  intro c hc
  simp at hc
  simp [hc, isWsChar]

theorem parseValue_skipWs (fuel : Nat) (l : List Char) :
    parseValue fuel (skipWs l) = parseValue fuel l := by
  cases fuel with
  | zero => rfl
  | succ f => simp [parseValue, skipWs_idem]

theorem parseItems_skipWs (fuel : Nat) (l : List Char) :
    parseItems fuel (skipWs l) = parseItems fuel l := by
  cases fuel with
  | zero => rfl
  | succ f => simp [parseItems, parseValue_skipWs]

theorem parseFields_skipWs (fuel : Nat) (l : List Char) :
    parseFields fuel (skipWs l) = parseFields fuel l := by
  cases fuel with
  | zero => rfl
  | succ f => simp [parseFields, skipWs_idem]

theorem char_toNat_ofNat {n : Nat} (h : n < 55296) : (Char.ofNat n).toNat = n := by
  have hv : n.isValidChar := Or.inl h
  simp [Char.ofNat, Char.ofNatAux, hv, Char.toNat, UInt32.toNat]

theorem digitChar_toNat {d : Nat} (h : d < 10) : (digitChar d).toNat = 48 + d := by
  have : 48 + d < 55296 := by omega
  simp [digitChar, char_toNat_ofNat this]

theorem isDigitChar_digitChar {d : Nat} (h : d < 10) : isDigitChar (digitChar d) = true := by
  simp [isDigitChar, digitChar_toNat h]
  omega

theorem digitVal_digitChar {d : Nat} (h : d < 10) : digitVal (digitChar d) = d := by
  simp [digitVal, digitChar_toNat h]

theorem natDigitsRev_stable (n : Nat) :
    ∀ f g, n + 1 ≤ f → n + 1 ≤ g → natDigitsRev f n = natDigitsRev g n := by
  induction n using Nat.strong_induction_on with
  | _ n ih =>
    intro f g hf hg
    obtain ⟨f2, rfl⟩ : ∃ f2, f = f2 + 1 := ⟨f - 1, by omega⟩
    obtain ⟨g2, rfl⟩ : ∃ g2, g = g2 + 1 := ⟨g - 1, by omega⟩
    by_cases h : n < 10
    · simp [natDigitsRev, h]
    · have hd : n / 10 < n := Nat.div_lt_self (by omega) (by omega)
      rw [natDigitsRev, if_neg h, natDigitsRev, if_neg h,
        ih (n / 10) hd f2 g2 (by omega) (by omega)]

theorem natToChars_decomp {n : Nat} (h : ¬ n < 10) :
    natToChars n = natToChars (n / 10) ++ [digitChar (n % 10)] := by
  have hd : n / 10 < n := Nat.div_lt_self (by omega) (by omega)
  rw [natToChars, natDigitsRev, if_neg h,
    natDigitsRev_stable (n / 10) n (n / 10 + 1) (by omega) (by omega)]
  simp [natToChars]

theorem natToChars_small {n : Nat} (h : n < 10) : natToChars n = [digitChar n] := by
  rw [natToChars, natDigitsRev, if_pos h]
  rfl

theorem natToChars_ne_nil (n : Nat) : natToChars n ≠ [] := by
  by_cases h : n < 10
  · simp [natToChars_small h]
  · simp [natToChars_decomp h]

theorem natToChars_all_digits (n : Nat) : ∀ c ∈ natToChars n, isDigitChar c = true := by
  induction n using Nat.strong_induction_on with
  | _ n ih =>
    by_cases h : n < 10
    · intro c hc
      rw [natToChars_small h] at hc
      simp at hc
      rw [hc]
      exact isDigitChar_digitChar h
    · intro c hc
      rw [natToChars_decomp h] at hc
      rcases List.mem_append.mp hc with h2 | h2
      · exact ih (n / 10) (Nat.div_lt_self (by omega) (by omega)) c h2
      · simp at h2
        rw [h2]
        exact isDigitChar_digitChar (by omega)

theorem parseDigits_append (l : List Char) :
    ∀ a rest, (∀ c ∈ l, isDigitChar c = true) → DigitBoundary rest →
    parseDigits (l ++ rest) (some a) =
      some (l.foldl (fun v c => v * 10 + digitVal c) a, rest) := by
  induction l with
  | nil =>
    intro a rest _ hb
    cases rest with
    | nil => simp [parseDigits]
    | cons c cs =>
      simp only [DigitBoundary] at hb
      simp [parseDigits, hb]
  | cons c l ih =>
    intro a rest hd hb
    have hc : isDigitChar c = true := hd c (List.mem_cons_self c l)
    simp only [List.cons_append, parseDigits, hc, if_pos, Option.getD_some, List.foldl_cons]
    exact ih _ rest (fun d hdm => hd d (List.mem_cons_of_mem c hdm)) hb

theorem natToChars_foldl (n : Nat) :
    ∀ a, (natToChars n).foldl (fun v c => v * 10 + digitVal c) a =
      a * 10 ^ (natToChars n).length + n := by
  induction n using Nat.strong_induction_on with
  | _ n ih =>
    intro a
    by_cases h : n < 10
    · simp [natToChars_small h, digitVal_digitChar h]
    · rw [natToChars_decomp h, List.foldl_append,
        ih (n / 10) (Nat.div_lt_self (by omega) (by omega)) a]
      simp [digitVal_digitChar (Nat.mod_lt n (by omega)), List.length_append,
        natToChars_decomp h]
      ring_nf
      have : n / 10 * 10 + n % 10 = n := by omega
      omega

theorem parseDigits_natToChars (n : Nat) {rest : List Char} (hb : DigitBoundary rest) :
    parseDigits (natToChars n ++ rest) none = some (n, rest) := by
  obtain ⟨c, l, hcl⟩ : ∃ c l, natToChars n = c :: l := by
    cases hnc : natToChars n with
    | nil => exact absurd hnc (natToChars_ne_nil n)
    | cons c l => exact ⟨c, l, rfl⟩
  have hc : isDigitChar c = true := by
    apply natToChars_all_digits n
    rw [hcl]; exact List.mem_cons_self c l
  have hl : ∀ d ∈ l, isDigitChar d = true := by
    intro d hd
    apply natToChars_all_digits n
    rw [hcl]; exact List.mem_cons_of_mem c hd
  rw [hcl, List.cons_append, parseDigits, if_pos hc]
  simp only [Option.getD_none, Nat.zero_mul, Nat.zero_add]
  rw [parseDigits_append l (digitVal c) rest hl hb]
  have := natToChars_foldl n (0 : Nat)
  rw [hcl] at this
  simp only [List.foldl_cons, Nat.zero_mul, Nat.zero_add] at this
  rw [this]

theorem hexVal_hexDigitChar {m : Nat} (h : m < 16) : hexVal (hexDigitChar m) = some m := by
  by_cases h10 : m < 10
  · have ht : (hexDigitChar m).toNat = 48 + m := by
      rw [hexDigitChar, if_pos h10]
      exact char_toNat_ofNat (by omega)
    simp [hexVal, ht]
    omega
  · have ht : (hexDigitChar m).toNat = 87 + m := by
      rw [hexDigitChar, if_neg h10]
      exact char_toNat_ofNat (by omega)
    simp only [hexVal, ht]
    have c1 : ¬ (48 ≤ 87 + m && 87 + m ≤ 57) = true := by simp; omega
    have c2 : (97 ≤ 87 + m && 87 + m ≤ 102) = true := by simp; omega
    rw [if_neg c1, if_pos c2]
    congr 1
    omega

theorem string_mk_data (s : String) : String.mk s.data = s := rfl

theorem char_ofNat_toNat (c : Char) : Char.ofNat c.toNat = c := Char.ofNat_toNat c

theorem parseStrChars_escape (s : List Char) :
    ∀ rest, parseStrChars (escapeChars s ++ '"' :: rest) = some (s, rest) := by
  induction s with
  | nil =>
    intro rest
    simp [escapeChars, parseStrChars]
  | cons c cs ih =>
    intro rest
    have hesc : escapeChars (c :: cs) = escapeChar c ++ escapeChars cs := by
      simp [escapeChars]
    rw [hesc, List.append_assoc]
    by_cases h1 : c = '"'
    · subst h1
      simp [escapeChar, parseStrChars, parseEsc, unescapeChar, ih rest]
    · by_cases h2 : c = '\\'
      · subst h2
        simp [escapeChar, parseStrChars, parseEsc, unescapeChar, ih rest]
      · by_cases h3 : c = Char.ofNat 8
        · subst h3
          simp [escapeChar, parseStrChars, parseEsc, unescapeChar, ih rest]
        · by_cases h4 : c = Char.ofNat 12
          · subst h4
            simp [escapeChar, parseStrChars, parseEsc, unescapeChar, ih rest]
          · by_cases h5 : c = '\n'
            · subst h5
              simp [escapeChar, parseStrChars, parseEsc, unescapeChar, ih rest]
            · by_cases h6 : c = '\r'
              · subst h6
                simp [escapeChar, parseStrChars, parseEsc, unescapeChar, ih rest]
              · by_cases h7 : c = '\t'
                · subst h7
                  simp [escapeChar, parseStrChars, parseEsc, unescapeChar, ih rest]
                · by_cases h8 : c.toNat < 32
                  · rw [escapeChar, if_neg h1, if_neg h2, if_neg h3, if_neg h4,
                      if_neg h5, if_neg h6, if_neg h7, if_pos h8]
                    have hq : hexVal (hexDigitChar (c.toNat / 16)) = some (c.toNat / 16) :=
                      hexVal_hexDigitChar (by omega)
                    have hr : hexVal (hexDigitChar (c.toNat % 16)) = some (c.toNat % 16) :=
                      hexVal_hexDigitChar (by omega)
                    have h0 : hexVal '0' = some 0 := by decide
                    simp only [List.cons_append, List.nil_append]
                    rw [parseStrChars.eq_def]
                    simp [parseEsc, h0, hq, hr, ih rest]
                    have hv : c.toNat / 16 * 16 + c.toNat % 16 = c.toNat := by
                      omega
                    rw [hv, char_ofNat_toNat]
                  · rw [escapeChar, if_neg h1, if_neg h2, if_neg h3, if_neg h4,
                      if_neg h5, if_neg h6, if_neg h7, if_neg h8]
                    simp only [List.cons_append, List.nil_append]
                    rw [parseStrChars.eq_def]
                    simp [h1, h2, h8, ih rest]

theorem needV_pos (v : Json) : 1 ≤ needV v := by
  cases v <;> simp [needV]

theorem needItems_pos (xs : List Json) : 1 ≤ needItems xs := by
  cases xs with
  | nil => simp [needItems]
  | cons x xs => simp [needItems]; omega

theorem needFields_pos (kvs : List (String × Json)) : 1 ≤ needFields kvs := by
  cases kvs with
  | nil => simp [needFields]
  | cons kv kvs => obtain ⟨k, v⟩ := kv; simp [needFields]; omega

theorem ws_not_digit {c : Char} (h : isWsChar c = true) : isDigitChar c = false := by
  simp only [isWsChar, Bool.or_eq_true, decide_eq_true_eq] at h
  rcases h with ((h | h) | h) | h <;> subst h <;> decide

theorem digitBoundary_ws_cons {w : List Char} (hw : AllWs w) {c : Char}
    (hc : isDigitChar c = false) (rest : List Char) : DigitBoundary (w ++ c :: rest) := by
  cases w with
  | nil => simpa [DigitBoundary] using hc
  | cons d ds =>
    have : isWsChar d = true := hw d (List.mem_cons_self d ds)
    simpa [DigitBoundary] using ws_not_digit this

theorem digit_excl {c : Char} (hc : isDigitChar c = true) :
    c ≠ 'n' ∧ c ≠ 't' ∧ c ≠ 'f' ∧ c ≠ '"' ∧ c ≠ '[' ∧ c ≠ '{' ∧ c ≠ '-' ∧
      isWsChar c = false := by
  have hws : isWsChar c = false := by
    cases hw : isWsChar c with
    | false => rfl
    | true => rw [ws_not_digit hw] at hc; cases hc
  refine ⟨?_, ?_, ?_, ?_, ?_, ?_, ?_, hws⟩ <;>
    (intro h; subst h; exact absurd hc (by decide))

/-- The first character of a rendered JSON value: never whitespace, never a
closing bracket or brace. -/
theorem renderChars_goodHead (v : Json) (n : Nat) :
    ∃ c t, renderChars v n = c :: t ∧ isWsChar c = false ∧ c ≠ ']' ∧ c ≠ '}' := by
  cases v with
  | null => exact ⟨'n', _, rfl, by decide, by decide, by decide⟩
  | bool b =>
    cases b
    · exact ⟨'f', _, rfl, by decide, by decide, by decide⟩
    · exact ⟨'t', _, rfl, by decide, by decide, by decide⟩
  | num i =>
    by_cases hneg : i < 0
    · refine ⟨'-', natToChars i.natAbs, ?_, by decide, by decide, by decide⟩
      simp [renderChars, intToChars, hneg]
    · obtain ⟨c, l, hcl⟩ : ∃ c l, natToChars i.toNat = c :: l := by
        cases hnc : natToChars i.toNat with
        | nil => exact absurd hnc (natToChars_ne_nil _)
        | cons c l => exact ⟨c, l, rfl⟩
      have hc : isDigitChar c = true := by
        apply natToChars_all_digits
        rw [hcl]; exact List.mem_cons_self c l
      obtain ⟨-, -, -, -, -, -, -, hws⟩ := digit_excl hc
      refine ⟨c, l, ?_, hws, ?_, ?_⟩
      · simp [renderChars, intToChars, hneg, hcl]
      · intro h; subst h; exact absurd hc (by decide)
      · intro h; subst h; exact absurd hc (by decide)
  | str s => exact ⟨'"', _, rfl, by decide, by decide, by decide⟩
  | arr xs =>
    cases xs
    · exact ⟨'[', _, rfl, by decide, by decide, by decide⟩
    · exact ⟨'[', _, rfl, by decide, by decide, by decide⟩
  | obj kvs =>
    cases kvs
    · exact ⟨'{', _, rfl, by decide, by decide, by decide⟩
    · exact ⟨'{', _, rfl, by decide, by decide, by decide⟩

/-- Every rendered item list starts with its indentation followed by the
first item. -/
theorem renderItems_shape (x : Json) (xs : List Json) (ind : Nat) :
    ∃ after, renderItems (x :: xs) ind = spaces ind ++ (renderChars x ind ++ after) := by
  cases xs with
  | nil => exact ⟨[], by simp [renderItems]⟩
  | cons y ys => exact ⟨',' :: '\n' :: renderItems (y :: ys) ind, by simp [renderItems]⟩

/-! ## Parser correctness over the renderer -/

theorem skipWs_ctx {w : List Char} (hw : AllWs w) {c : Char} (hc : isWsChar c = false)
    (l : List Char) : skipWs (w ++ c :: l) = c :: l := by
  rw [skipWs_append_of_ws hw, skipWs_cons_of_not_ws hc]

theorem allWs_nl_spaces (n : Nat) : AllWs ('\n' :: spaces n) := by
  intro d hd
  rcases List.mem_cons.mp hd with h | h
  · subst h; decide
  · exact allWs_spaces n d h

theorem renderFields_shape (k : String) (v : Json) (kvs : List (String × Json)) (ind : Nat) :
    ∃ after, renderFields ((k, v) :: kvs) ind =
      spaces ind ++ ('"' :: (escapeChars k.data ++ '"' :: ':' :: ' ' :: (renderChars v ind ++ after))) := by
  cases kvs with
  | nil => exact ⟨[], by simp [renderFields]⟩
  | cons kv2 kvs2 => exact ⟨',' :: '\n' :: renderFields (kv2 :: kvs2) ind, by simp [renderFields]⟩

theorem parse_render_all (fuel : Nat) :
    (∀ v : Json, ∀ n w rest, needV v ≤ fuel → AllWs w → DigitBoundary rest →
      parseValue fuel (w ++ (renderChars v n ++ rest)) = some (v, rest)) ∧
    (∀ x : Json, ∀ xs ind w1 w2 rest, needItems (x :: xs) ≤ fuel → AllWs w1 → AllWs w2 →
      parseItems fuel (w1 ++ (renderItems (x :: xs) ind ++ (w2 ++ ']' :: rest))) =
        some (x :: xs, rest)) ∧
    (∀ k : String, ∀ v : Json, ∀ kvs ind w1 w2 rest,
      needFields ((k, v) :: kvs) ≤ fuel → AllWs w1 → AllWs w2 →
      parseFields fuel (w1 ++ (renderFields ((k, v) :: kvs) ind ++ (w2 ++ '}' :: rest))) =
        some ((k, v) :: kvs, rest)) := by
  induction fuel using Nat.strong_induction_on with
  | _ fuel ih =>
  refine ⟨?_, ?_, ?_⟩
  · intro v n w rest hneed hw hb
    cases fuel with
    | zero => have := needV_pos v; omega
    | succ f =>
    cases v with
    | null =>
      have hsk : skipWs (w ++ (renderChars .null n ++ rest)) = 'n' :: 'u' :: 'l' :: 'l' :: rest := by
        simp only [renderChars, List.cons_append, List.nil_append]
        exact skipWs_ctx hw (by decide) _
      simp [parseValue, hsk, stripLit]
    | bool b =>
      cases b with
      | true =>
        have hsk : skipWs (w ++ (renderChars (.bool true) n ++ rest)) =
            't' :: 'r' :: 'u' :: 'e' :: rest := by
          simp only [renderChars, List.cons_append, List.nil_append]
          exact skipWs_ctx hw (by decide) _
        simp [parseValue, hsk, stripLit]
      | false =>
        have hsk : skipWs (w ++ (renderChars (.bool false) n ++ rest)) =
            'f' :: 'a' :: 'l' :: 's' :: 'e' :: rest := by
          simp only [renderChars, List.cons_append, List.nil_append]
          exact skipWs_ctx hw (by decide) _
        simp [parseValue, hsk, stripLit]
    | num i =>
      by_cases hneg : i < 0
      · have hr : renderChars (.num i) n ++ rest = '-' :: (natToChars i.natAbs ++ rest) := by
          simp [renderChars, intToChars, hneg]
        have hsk : skipWs (w ++ (renderChars (.num i) n ++ rest)) =
            '-' :: (natToChars i.natAbs ++ rest) := by
          rw [hr]; exact skipWs_ctx hw (by decide) _
        simp only [parseValue, hsk]
        have hni : ((i.natAbs : Int)) = -i := by omega
        simp [parseDigits_natToChars i.natAbs hb, hni]
      · obtain ⟨c, l, hcl⟩ : ∃ c l, natToChars i.toNat = c :: l := by
          cases hnc : natToChars i.toNat with
          | nil => exact absurd hnc (natToChars_ne_nil _)
          | cons c l => exact ⟨c, l, rfl⟩
        have hc : isDigitChar c = true := by
          apply natToChars_all_digits
          rw [hcl]; exact List.mem_cons_self c l
        obtain ⟨hn, ht', hf, hq, hbr, hbc, hm, hws⟩ := digit_excl hc
        have hr : renderChars (.num i) n ++ rest = c :: (l ++ rest) := by
          simp [renderChars, intToChars, hneg, hcl]
        have hsk : skipWs (w ++ (renderChars (.num i) n ++ rest)) = c :: (l ++ rest) := by
          rw [hr]; exact skipWs_ctx hw hws _
        simp only [parseValue, hsk]
        rw [if_neg hn, if_neg ht', if_neg hf, if_neg hq, if_neg hbr, if_neg hbc, if_neg hm,
          if_pos hc]
        have hre : c :: (l ++ rest) = natToChars i.toNat ++ rest := by rw [hcl]; simp
        rw [hre, parseDigits_natToChars _ hb]
        simp [Int.toNat_of_nonneg (by omega : (0 : Int) ≤ i)]
    | str s =>
      have hr : renderChars (.str s) n ++ rest = '"' :: (escapeChars s.data ++ '"' :: rest) := by
        simp [renderChars]
      have hsk : skipWs (w ++ (renderChars (.str s) n ++ rest)) =
          '"' :: (escapeChars s.data ++ '"' :: rest) := by
        rw [hr]; exact skipWs_ctx hw (by decide) _
      simp [parseValue, hsk, parseStrChars_escape s.data rest, string_mk_data]
    | arr xs =>
      cases xs with
      | nil =>
        have hsk : skipWs (w ++ (renderChars (.arr []) n ++ rest)) = '[' :: ']' :: rest := by
          simp only [renderChars, List.cons_append, List.nil_append]
          exact skipWs_ctx hw (by decide) _
        simp [parseValue, hsk, skipWs_cons_of_not_ws (by decide : isWsChar ']' = false)]
      | cons x xs =>
        obtain ⟨c0, t0, hx0, hnws0, hne1, hne2⟩ := renderChars_goodHead x (n + 2)
        obtain ⟨after, hshape⟩ := renderItems_shape x xs (n + 2)
        have hsk : skipWs (w ++ (renderChars (.arr (x :: xs)) n ++ rest)) =
            '[' :: ('\n' :: (renderItems (x :: xs) (n + 2) ++ ('\n' :: spaces n ++ ']' :: rest))) := by
          simp only [renderChars, List.cons_append, List.nil_append, List.append_assoc]
          exact skipWs_ctx hw (by decide) _
        simp only [parseValue, hsk, Char.reduceEq, reduceIte]
        have hsk2 : skipWs ('\n' :: (renderItems (x :: xs) (n + 2) ++ ('\n' :: spaces n ++ ']' :: rest))) =
            c0 :: (t0 ++ (after ++ ('\n' :: spaces n ++ ']' :: rest))) := by
          rw [skipWs, if_pos (by decide : isWsChar '\n' = true)]
          have harr : renderItems (x :: xs) (n + 2) ++ ('\n' :: spaces n ++ ']' :: rest) =
              spaces (n + 2) ++ (c0 :: (t0 ++ (after ++ ('\n' :: spaces n ++ ']' :: rest)))) := by
            rw [hshape, hx0]; simp
          rw [harr]
          exact skipWs_ctx (allWs_spaces (n + 2)) hnws0 _
        rw [hsk2]
        split
        · next r2 heq => exact absurd (List.head_eq_of_cons_eq heq.symm) (Ne.symm hne1)
        · next hno =>
          rw [← hsk2, parseItems_skipWs]
          have harg : ('\n' :: (renderItems (x :: xs) (n + 2) ++ ('\n' :: spaces n ++ ']' :: rest))) =
              ['\n'] ++ (renderItems (x :: xs) (n + 2) ++ (('\n' :: spaces n) ++ ']' :: rest)) := by
            simp
          have hitems := (ih f (by omega)).2.1 x xs (n + 2) ['\n'] ('\n' :: spaces n) rest
            (by simp [needV] at hneed; omega) allWs_newline (allWs_nl_spaces n)
          rw [harg, hitems]
          rfl
    | obj kvs =>
      cases kvs with
      | nil =>
        have hsk : skipWs (w ++ (renderChars (.obj []) n ++ rest)) = '{' :: '}' :: rest := by
          simp only [renderChars, List.cons_append, List.nil_append]
          exact skipWs_ctx hw (by decide) _
        simp [parseValue, hsk, skipWs_cons_of_not_ws (by decide : isWsChar '}' = false)]
      | cons kv kvs =>
        obtain ⟨k, v⟩ := kv
        obtain ⟨after, hshape⟩ := renderFields_shape k v kvs (n + 2)
        have hsk : skipWs (w ++ (renderChars (.obj ((k, v) :: kvs)) n ++ rest)) =
            '{' :: ('\n' :: (renderFields ((k, v) :: kvs) (n + 2) ++ ('\n' :: spaces n ++ '}' :: rest))) := by
          simp only [renderChars, List.cons_append, List.nil_append, List.append_assoc]
          exact skipWs_ctx hw (by decide) _
        simp only [parseValue, hsk, Char.reduceEq, reduceIte]
        have hsk2 : skipWs ('\n' :: (renderFields ((k, v) :: kvs) (n + 2) ++ ('\n' :: spaces n ++ '}' :: rest))) =
            '"' :: (escapeChars k.data ++ '"' :: ':' :: ' ' :: (renderChars v (n + 2) ++
              (after ++ ('\n' :: spaces n ++ '}' :: rest)))) := by
          rw [skipWs, if_pos (by decide : isWsChar '\n' = true)]
          have harr : renderFields ((k, v) :: kvs) (n + 2) ++ ('\n' :: spaces n ++ '}' :: rest) =
              spaces (n + 2) ++ ('"' :: (escapeChars k.data ++ '"' :: ':' :: ' ' ::
                (renderChars v (n + 2) ++ (after ++ ('\n' :: spaces n ++ '}' :: rest))))) := by
            rw [hshape]; simp
          rw [harr]
          exact skipWs_ctx (allWs_spaces (n + 2)) (by decide) _
        rw [hsk2]
        split
        · next r2 heq => cases heq
        · next hno =>
          rw [← hsk2, parseFields_skipWs]
          have harg : ('\n' :: (renderFields ((k, v) :: kvs) (n + 2) ++ ('\n' :: spaces n ++ '}' :: rest))) =
              ['\n'] ++ (renderFields ((k, v) :: kvs) (n + 2) ++ (('\n' :: spaces n) ++ '}' :: rest)) := by
            simp
          have hfields := (ih f (by omega)).2.2 k v kvs (n + 2) ['\n'] ('\n' :: spaces n) rest
            (by simp [needV] at hneed; omega) allWs_newline (allWs_nl_spaces n)
          rw [harg, hfields]
          rfl
  · intro x xs ind w1 w2 rest hneed hw1 hw2
    cases fuel with
    | zero => have := needItems_pos (x :: xs); omega
    | succ f =>
    have hxle : needV x ≤ f := by
      simp [needItems] at hneed; have := needItems_pos xs; omega
    cases xs with
    | nil =>
      have hval := (ih f (by omega)).1 x ind (w1 ++ spaces ind) (w2 ++ ']' :: rest) hxle
        (allWs_append hw1 (allWs_spaces ind))
        (digitBoundary_ws_cons hw2 (by decide) rest)
      simp only [List.append_assoc] at hval
      have hsk : skipWs (w2 ++ ']' :: rest) = ']' :: rest := skipWs_ctx hw2 (by decide) rest
      simp [parseItems, renderItems, hval, hsk]
    | cons y ys =>
      have hval := (ih f (by omega)).1 x ind (w1 ++ spaces ind)
        (',' :: '\n' :: (renderItems (y :: ys) ind ++ (w2 ++ ']' :: rest))) hxle
        (allWs_append hw1 (allWs_spaces ind)) (by exact (by decide : isDigitChar ',' = false))
      simp only [List.append_assoc] at hval
      have hit := (ih f (by omega)).2.1 y ys ind ['\n'] w2 rest
        (by simp [needItems] at hneed ⊢; omega) allWs_newline hw2
      simp only [List.cons_append, List.nil_append, List.append_assoc] at hit
      simp [parseItems, renderItems, hval, skipWs, isWsChar, hit]
  · intro k v kvs ind w1 w2 rest hneed hw1 hw2
    cases fuel with
    | zero => have := needFields_pos ((k, v) :: kvs); omega
    | succ f =>
    have hvle : needV v ≤ f := by
      simp [needFields] at hneed; have := needFields_pos kvs; omega
    have hwsp : AllWs (w1 ++ spaces ind) := allWs_append hw1 (allWs_spaces ind)
    cases kvs with
    | nil =>
      have hval := (ih f (by omega)).1 v ind [' '] (w2 ++ '}' :: rest) hvle
        (by intro d hd; simp at hd; subst hd; decide)
        (digitBoundary_ws_cons hw2 (by decide) rest)
      simp only [List.cons_append, List.nil_append] at hval
      have hsk : skipWs (w2 ++ '}' :: rest) = '}' :: rest := skipWs_ctx hw2 (by decide) rest
      have hskq : ∀ l : List Char, skipWs (w1 ++ (spaces ind ++ ('"' :: l))) = '"' :: l := by
        intro l
        have := skipWs_ctx hwsp (by decide : isWsChar '"' = false) l
        simpa using this
      simp [parseFields, renderFields, hskq, parseStrChars_escape, skipWs, isWsChar, hval, hsk,
        string_mk_data]
    | cons kv2 kvs2 =>
      obtain ⟨k2, v2⟩ := kv2
      have hval := (ih f (by omega)).1 v ind [' ']
        (',' :: '\n' :: (renderFields ((k2, v2) :: kvs2) ind ++ (w2 ++ '}' :: rest))) hvle
        (by intro d hd; simp at hd; subst hd; decide)
        (by exact (by decide : isDigitChar ',' = false))
      simp only [List.cons_append, List.nil_append] at hval
      have hfl := (ih f (by omega)).2.2 k2 v2 kvs2 ind ['\n'] w2 rest
        (by simp [needFields] at hneed ⊢; omega) allWs_newline hw2
      simp only [List.cons_append, List.nil_append, List.append_assoc] at hfl
      have hskq : ∀ l : List Char, skipWs (w1 ++ (spaces ind ++ ('"' :: l))) = '"' :: l := by
        intro l
        have := skipWs_ctx hwsp (by decide : isWsChar '"' = false) l
        simpa using this
      simp [parseFields, renderFields, hskq, parseStrChars_escape, skipWs, isWsChar, hval, hfl,
        string_mk_data]

/-- Fuel bound: the parsing fuel needed for a value is covered by the length
of its rendering (plus one), by strong induction on size. -/
theorem needBound_all (N : Nat) :
    (∀ v : Json, sizeOf v ≤ N → ∀ n, needV v ≤ (renderChars v n).length + 1) ∧
    (∀ x : Json, ∀ xs : List Json, sizeOf (x :: xs) ≤ N → ∀ ind, 2 ≤ ind →
      needItems (x :: xs) ≤ (renderItems (x :: xs) ind).length + 1) ∧
    (∀ k : String, ∀ v : Json, ∀ kvs : List (String × Json),
      sizeOf ((k, v) :: kvs) ≤ N → ∀ ind, 2 ≤ ind →
      needFields ((k, v) :: kvs) ≤ (renderFields ((k, v) :: kvs) ind).length + 1) := by
  induction N using Nat.strong_induction_on with
  | _ N ih =>
  refine ⟨?_, ?_, ?_⟩
  · intro v hs n
    cases v with
    | null => simp [needV, renderChars]
    | bool b => cases b <;> simp [needV, renderChars]
    | num i => simp [needV]
    | str s => simp [needV, renderChars]
    | arr xs =>
      cases xs with
      | nil => simp [needV, needItems, renderChars]
      | cons x xs =>
        have hlt : sizeOf (x :: xs) < N := by
          have := Json.arr.sizeOf_spec (x :: xs); omega
        have hit := (ih (sizeOf (x :: xs)) hlt).2.1 x xs (le_refl _) (n + 2) (by omega)
        simp only [needV, renderChars, List.length_cons, List.length_append, spaces,
          List.length_replicate]
        omega
    | obj kvs =>
      cases kvs with
      | nil => simp [needV, needFields, renderChars]
      | cons kv kvs =>
        obtain ⟨k, v⟩ := kv
        have hlt : sizeOf ((k, v) :: kvs) < N := by
          have := Json.obj.sizeOf_spec ((k, v) :: kvs); omega
        have hfl := (ih (sizeOf ((k, v) :: kvs)) hlt).2.2 k v kvs (le_refl _) (n + 2) (by omega)
        simp only [needV, renderChars, List.length_cons, List.length_append, spaces,
          List.length_replicate]
        omega
  · intro x xs hs ind hind
    have hx : sizeOf x < N := by
      have := List.cons.sizeOf_spec x xs; omega
    have hvx := (ih (sizeOf x) hx).1 x (le_refl _) ind
    cases xs with
    | nil =>
      simp only [needItems, renderItems, List.length_append, spaces, List.length_replicate]
      omega
    | cons y ys =>
      have hlt : sizeOf (y :: ys) < N := by
        have := List.cons.sizeOf_spec x (y :: ys)
        have := List.cons.sizeOf_spec y ys; omega
      have hit := (ih (sizeOf (y :: ys)) hlt).2.1 y ys (le_refl _) ind hind
      simp only [needItems, renderItems, List.length_append, List.length_cons, spaces,
        List.length_replicate] at hit ⊢
      omega
  · intro k v kvs hs ind hind
    have hv : sizeOf v < N := by
      have := List.cons.sizeOf_spec (k, v) kvs
      have := Prod.mk.sizeOf_spec k v; omega
    have hvv := (ih (sizeOf v) hv).1 v (le_refl _) ind
    cases kvs with
    | nil =>
      simp only [needFields, renderFields, List.length_append, List.length_cons, spaces,
        List.length_replicate]
      omega
    | cons kv2 kvs2 =>
      obtain ⟨k2, v2⟩ := kv2
      have hlt : sizeOf ((k2, v2) :: kvs2) < N := by
        have := List.cons.sizeOf_spec (k, v) ((k2, v2) :: kvs2)
        have := List.cons.sizeOf_spec (k2, v2) kvs2; omega
      have hfl := (ih (sizeOf ((k2, v2) :: kvs2)) hlt).2.2 k2 v2 kvs2 (le_refl _) ind hind
      simp only [needFields, renderFields, List.length_append, List.length_cons, spaces,
        List.length_replicate] at hfl ⊢
      omega

/-! ## The props codec API of the source

`stringify(value, replacer = null, space = 2)` is `JSON.stringify` with the
defaults the source fixes; `parseProps` is `JSON.parse`, with a thrown
exception modelled as `none`. -/

/-- `stringify` of the source: `JSON.stringify(value, null, 2)`. -/
def stringify (v : Json) : String :=
  String.mk (renderChars v 0)

/-- `parseProps` of the source: `JSON.parse(value)`; `none` models a thrown
`SyntaxError`.  The fuel `length + 1` is always sufficient. -/
def parseProps (s : String) : Option Json :=
  match parseValue (s.data.length + 1) s.data with
  | some (v, r) => if skipWs r = [] then some v else none
  | none => none

theorem parseProps_stringify (v : Json) : parseProps (stringify v) = some v := by
  have hlen : needV v ≤ (renderChars v 0).length + 1 :=
    (needBound_all (sizeOf v)).1 v (le_refl _) 0
  have hmain := (parse_render_all ((renderChars v 0).length + 1)).1 v 0 [] [] hlen
    allWs_nil trivial
  simp only [List.nil_append, List.append_nil] at hmain
  simp [parseProps, stringify, hmain, skipWs]

/-! ## Percent-encoding: `encodeURIComponent` / `decodeURIComponent`

`encodeURIComponent` leaves the unreserved characters
`A-Z a-z 0-9 - _ . ! ~ * ' ( )` intact and replaces every other character
by the uppercase `%XX` escapes of its UTF-8 bytes; `decodeURIComponent`
reverses this, a thrown `URIError` being modelled as `none`. -/

/-- Uppercase hexadecimal digit, as produced by `encodeURIComponent`. -/
def hexDigitCharUpper (n : Nat) : Char :=
  if n < 10 then Char.ofNat (48 + n) else Char.ofNat (55 + n)

/-- The unreserved characters of `encodeURIComponent` (ECMA-262
`uriUnescaped`). -/
def isUnreserved (c : Char) : Bool :=
  (65 ≤ c.toNat && c.toNat ≤ 90) || (97 ≤ c.toNat && c.toNat ≤ 122) ||
  (48 ≤ c.toNat && c.toNat ≤ 57) || c.toNat = 45 || c.toNat = 95 || c.toNat = 46 ||
  c.toNat = 33 || c.toNat = 126 || c.toNat = 42 || c.toNat = 39 || c.toNat = 40 ||
  c.toNat = 41

/-- UTF-8 encoding of one scalar value, as byte values. -/
def utf8Bytes (c : Char) : List Nat :=
  let n := c.toNat
  if n < 128 then [n]
  else if n < 2048 then [192 + n / 64, 128 + n % 64]
  else if n < 65536 then [224 + n / 4096, 128 + (n / 64) % 64, 128 + n % 64]
  else [240 + n / 262144, 128 + (n / 4096) % 64, 128 + (n / 64) % 64, 128 + n % 64]

/-- `%XX` escape of one byte, uppercase. -/
def byteEsc (b : Nat) : List Char :=
  ['%', hexDigitCharUpper (b / 16), hexDigitCharUpper (b % 16)]

/-- `encodeURIComponent` on one character. -/
def encodeChar (c : Char) : List Char :=
  if isUnreserved c then [c] else (utf8Bytes c).flatMap byteEsc

/-- `encodeURIComponent`, over character lists. -/
def encodeURIComp (s : List Char) : List Char :=
  s.flatMap encodeChar

mutual

/-- `decodeURIComponent`, over character lists; `none` models a thrown
`URIError` on a malformed escape sequence. -/
def decodeURIComp : List Char → Option (List Char)
| [] => some []
| c :: rest =>
  if c = '%' then decodeEsc rest
  else (decodeURIComp rest).map fun l => c :: l

/-- Decode what follows a `%`: two hexadecimal digits giving the leading
byte, then that byte's continuation escapes. -/
def decodeEsc : List Char → Option (List Char)
| h1 :: h2 :: rest2 =>
  match hexVal h1, hexVal h2 with
  | some a, some b =>
    let b0 := a * 16 + b
    if b0 < 128 then (decodeURIComp rest2).map fun l => Char.ofNat b0 :: l
    else if b0 < 192 then none
    else if b0 < 224 then decodeCont1 (b0 - 192) rest2
    else if b0 < 240 then decodeCont2 (b0 - 224) rest2
    else if b0 < 248 then decodeCont3 (b0 - 240) rest2
    else none
  | _, _ => none
| _ => none

/-- Decode one UTF-8 continuation byte escape and finish the scalar. -/
def decodeCont1 (acc : Nat) : List Char → Option (List Char)
| c :: h3 :: h4 :: rest =>
  if c = '%' then
    match hexVal h3, hexVal h4 with
    | some a, some b =>
      let b1 := a * 16 + b
      if 128 ≤ b1 && b1 < 192 then
        (decodeURIComp rest).map fun l => Char.ofNat (acc * 64 + (b1 - 128)) :: l
      else none
    | _, _ => none
  else none
| _ => none

/-- Decode one continuation byte escape, one more to follow. -/
def decodeCont2 (acc : Nat) : List Char → Option (List Char)
| c :: h3 :: h4 :: rest =>
  if c = '%' then
    match hexVal h3, hexVal h4 with
    | some a, some b =>
      let b1 := a * 16 + b
      if 128 ≤ b1 && b1 < 192 then decodeCont1 (acc * 64 + (b1 - 128)) rest
      else none
    | _, _ => none
  else none
| _ => none

/-- Decode one continuation byte escape, two more to follow. -/
def decodeCont3 (acc : Nat) : List Char → Option (List Char)
| c :: h3 :: h4 :: rest =>
  if c = '%' then
    match hexVal h3, hexVal h4 with
    | some a, some b =>
      let b1 := a * 16 + b
      if 128 ≤ b1 && b1 < 192 then decodeCont2 (acc * 64 + (b1 - 128)) rest
      else none
    | _, _ => none
  else none
| _ => none

end

theorem hexValUpper {m : Nat} (h : m < 16) : hexVal (hexDigitCharUpper m) = some m := by
  by_cases h10 : m < 10
  · have ht : (hexDigitCharUpper m).toNat = 48 + m := by
      rw [hexDigitCharUpper, if_pos h10]
      exact char_toNat_ofNat (by omega)
    simp [hexVal, ht]
    omega
  · have ht : (hexDigitCharUpper m).toNat = 55 + m := by
      rw [hexDigitCharUpper, if_neg h10]
      exact char_toNat_ofNat (by omega)
    simp only [hexVal, ht]
    have c1 : ¬ (48 ≤ 55 + m && 55 + m ≤ 57) = true := by simp; omega
    have c2 : ¬ (97 ≤ 55 + m && 55 + m ≤ 102) = true := by simp; omega
    have c3 : (65 ≤ 55 + m && 55 + m ≤ 70) = true := by simp; omega
    rw [if_neg c1, if_neg c2, if_pos c3]
    congr 1
    omega

theorem unreserved_ne_percent {c : Char} (h : isUnreserved c = true) : ¬ c = '%' := by
  intro he; subst he; exact absurd h (by decide)

theorem char_toNat_lt (c : Char) : c.toNat < 1114112 := by
  rcases c.valid with h | h
  · exact Nat.lt_trans h (by norm_num)
  · exact h.2

theorem decode_encodeChar (c : Char) (rest : List Char) :
    decodeURIComp (encodeChar c ++ rest) = (decodeURIComp rest).map fun l => c :: l := by
  by_cases hu : isUnreserved c = true
  · rw [encodeChar, if_pos hu]
    simp only [List.cons_append, List.nil_append]
    rw [decodeURIComp, if_neg (unreserved_ne_percent hu)]
  · rw [encodeChar, if_neg hu]
    have hv := char_toNat_lt c
    by_cases h1 : c.toNat < 128
    · have hby : utf8Bytes c = [c.toNat] := by rw [utf8Bytes]; simp [h1]
      rw [hby]
      simp only [List.flatMap_cons, List.flatMap_nil, byteEsc, List.cons_append,
        List.nil_append, List.append_nil]
      rw [decodeURIComp, if_pos rfl, decodeEsc,
        hexValUpper (by omega), hexValUpper (by omega)]
      simp only []
      have hb0 : c.toNat / 16 * 16 + c.toNat % 16 = c.toNat := by omega
      rw [hb0, if_pos h1, char_ofNat_toNat]
    · by_cases h2 : c.toNat < 2048
      · have hby : utf8Bytes c = [192 + c.toNat / 64, 128 + c.toNat % 64] := by
          rw [utf8Bytes]; simp [h1, h2]
        rw [hby]
        simp only [List.flatMap_cons, List.flatMap_nil, byteEsc, List.cons_append,
          List.nil_append, List.append_nil]
        rw [decodeURIComp, if_pos rfl, decodeEsc,
          hexValUpper (by omega), hexValUpper (by omega)]
        simp only []
        have hb0 : (192 + c.toNat / 64) / 16 * 16 + (192 + c.toNat / 64) % 16 =
            192 + c.toNat / 64 := by omega
        rw [hb0, if_neg (by omega), if_neg (by omega), if_pos (by omega)]
        rw [decodeCont1, if_pos rfl, hexValUpper (by omega), hexValUpper (by omega)]
        simp only []
        have hb1 : (128 + c.toNat % 64) / 16 * 16 + (128 + c.toNat % 64) % 16 =
            128 + c.toNat % 64 := by omega
        rw [hb1, if_pos (by simp; omega)]
        have hsc : (192 + c.toNat / 64 - 192) * 64 + (128 + c.toNat % 64 - 128) = c.toNat := by
          omega
        rw [hsc, char_ofNat_toNat]
      · by_cases h3 : c.toNat < 65536
        · have hby : utf8Bytes c =
              [224 + c.toNat / 4096, 128 + c.toNat / 64 % 64, 128 + c.toNat % 64] := by
            rw [utf8Bytes]; simp [h1, h2, h3]
          rw [hby]
          simp only [List.flatMap_cons, List.flatMap_nil, byteEsc, List.cons_append,
            List.nil_append, List.append_nil]
          rw [decodeURIComp, if_pos rfl, decodeEsc,
            hexValUpper (by omega), hexValUpper (by omega)]
          simp only []
          have hb0 : (224 + c.toNat / 4096) / 16 * 16 + (224 + c.toNat / 4096) % 16 =
              224 + c.toNat / 4096 := by omega
          rw [hb0, if_neg (by omega), if_neg (by omega), if_neg (by omega), if_pos (by omega)]
          rw [decodeCont2, if_pos rfl, hexValUpper (by omega), hexValUpper (by omega)]
          simp only []
          have hb1 : (128 + c.toNat / 64 % 64) / 16 * 16 + (128 + c.toNat / 64 % 64) % 16 =
              128 + c.toNat / 64 % 64 := by omega
          rw [hb1, if_pos (by simp; omega)]
          rw [decodeCont1, if_pos rfl, hexValUpper (by omega), hexValUpper (by omega)]
          simp only []
          have hb2 : (128 + c.toNat % 64) / 16 * 16 + (128 + c.toNat % 64) % 16 =
              128 + c.toNat % 64 := by omega
          rw [hb2, if_pos (by simp; omega)]
          have hsc : ((224 + c.toNat / 4096 - 224) * 64 + (128 + c.toNat / 64 % 64 - 128)) * 64 +
              (128 + c.toNat % 64 - 128) = c.toNat := by omega
          rw [hsc, char_ofNat_toNat]
        · have hby : utf8Bytes c =
              [240 + c.toNat / 262144, 128 + c.toNat / 4096 % 64, 128 + c.toNat / 64 % 64,
                128 + c.toNat % 64] := by
            rw [utf8Bytes]; simp [h1, h2, h3]
          rw [hby]
          simp only [List.flatMap_cons, List.flatMap_nil, byteEsc, List.cons_append,
            List.nil_append, List.append_nil]
          rw [decodeURIComp, if_pos rfl, decodeEsc,
            hexValUpper (by omega), hexValUpper (by omega)]
          simp only []
          have hb0 : (240 + c.toNat / 262144) / 16 * 16 + (240 + c.toNat / 262144) % 16 =
              240 + c.toNat / 262144 := by omega
          rw [hb0, if_neg (by omega), if_neg (by omega), if_neg (by omega), if_neg (by omega),
            if_pos (by omega)]
          rw [decodeCont3, if_pos rfl, hexValUpper (by omega), hexValUpper (by omega)]
          simp only []
          have hb1 : (128 + c.toNat / 4096 % 64) / 16 * 16 + (128 + c.toNat / 4096 % 64) % 16 =
              128 + c.toNat / 4096 % 64 := by omega
          rw [hb1, if_pos (by simp; omega)]
          rw [decodeCont2, if_pos rfl, hexValUpper (by omega), hexValUpper (by omega)]
          simp only []
          have hb2 : (128 + c.toNat / 64 % 64) / 16 * 16 + (128 + c.toNat / 64 % 64) % 16 =
              128 + c.toNat / 64 % 64 := by omega
          rw [hb2, if_pos (by simp; omega)]
          rw [decodeCont1, if_pos rfl, hexValUpper (by omega), hexValUpper (by omega)]
          simp only []
          have hb3 : (128 + c.toNat % 64) / 16 * 16 + (128 + c.toNat % 64) % 16 =
              128 + c.toNat % 64 := by omega
          rw [hb3, if_pos (by simp; omega)]
          have hsc : (((240 + c.toNat / 262144 - 240) * 64 + (128 + c.toNat / 4096 % 64 - 128)) * 64 +
              (128 + c.toNat / 64 % 64 - 128)) * 64 + (128 + c.toNat % 64 - 128) = c.toNat := by
            omega
          rw [hsc, char_ofNat_toNat]

theorem decodeURIComp_encodeURIComp (s : List Char) :
    decodeURIComp (encodeURIComp s) = some s := by
  induction s with
  | nil => rfl
  | cons c cs ih =>
    have he : encodeURIComp (c :: cs) = encodeChar c ++ encodeURIComp cs := by
      simp [encodeURIComp]
    rw [he, decode_encodeChar, ih]
    rfl

/-- `encodeProps` of the source: `encodeURIComponent(stringify(value))`. -/
def encodeProps (v : Json) : String :=
  String.mk (encodeURIComp (stringify v).data)

/-- `decodeProps` of the source: `parseProps(decodeURIComponent(value))`;
`none` models a thrown error from either step. -/
def decodeProps (s : String) : Option Json :=
  (decodeURIComp s.data).bind fun l => parseProps (String.mk l)

theorem decodeProps_encodeProps (v : Json) : decodeProps (encodeProps v) = some v := by
  show (decodeURIComp (encodeURIComp (stringify v).data)).bind
    (fun l => parseProps (String.mk l)) = some v
  rw [decodeURIComp_encodeURIComp]
  simp [string_mk_data, parseProps_stringify]

/-- C6: For every property value representable in JSON (as modelled by
`Json`), `parseProps (stringify x)` recovers `x` exactly, and
`decodeProps (encodeProps x)` recovers `x` exactly. -/
theorem C6_codec_roundtrip (x : Json) :
    parseProps (stringify x) = some x ∧ decodeProps (encodeProps x) = some x :=
  ⟨parseProps_stringify x, decodeProps_encodeProps x⟩

/-! ## Component registry (`registerComponent` / `findComponentByName`)

The source keeps `links : Record<string, SvelteLink>`, a string-keyed
record; `registerComponent` assigns `links[name] = {...}`, and
`findComponentByName` reads `links[name]`, invoking and caching the lazy
getter on first resolution.  Component classes and getters are modelled by
opaque numeric identifiers (a getter resolves to the component it yields). -/

/-- A registry entry: `{ name, svelteComponent?, svelteComponentGetter? }`. -/
structure SvelteLink where
  name : String
  svelteComponent : Option Nat
  svelteComponentGetter : Option Nat
deriving DecidableEq, Repr

/-- The module-level `links` record, keyed by exact string name. -/
def Links := String → Option SvelteLink

/-- What the caller passes to `registerComponent`: the source distinguishes
a component class from a resolver function with its `isComponentClass`
runtime test; the model keeps the outcome of that test as a tag. -/
inductive RegisterArg where
| cls (c : Nat) : RegisterArg
| getter (g : Nat) : RegisterArg
deriving DecidableEq, Repr

/-- The component a registration resolves to (the class itself, or the
getter's eventual result). -/
def RegisterArg.value : RegisterArg → Nat
| .cls c => c
| .getter g => g

/-- `registerComponent(name, svelteComponent)`: `links[name] = {...}`,
overwriting any existing entry for the exact key. -/
def registerComponent (links : Links) (name : String) (arg : RegisterArg) : Links :=
  fun s =>
    if s = name then
      some (match arg with
        | .cls c => { name := name, svelteComponent := some c, svelteComponentGetter := none }
        | .getter g => { name := name, svelteComponent := none, svelteComponentGetter := some g })
    else links s

/-- `findComponentByName(name)`: exact record lookup; when only a getter is
present it is awaited and its result cached onto the link.  Returns the
component (or `undefined` = `none`) and the registry state after caching. -/
def findComponentByName (links : Links) (name : String) : Option Nat × Links :=
  match links name with
  | none => (none, links)
  | some link =>
    match link.svelteComponent with
    | some c => (some c, links)
    | none =>
      match link.svelteComponentGetter with
      | some g =>
        (some g, fun s =>
          if s = name then some { link with svelteComponent := some g } else links s)
      | none => (none, links)

/-- The empty registry. -/
def emptyLinks : Links := fun _ => none

/-- C3, counterexample: the claim as stated is false on the code.  With the
record-based registry, registering the same name twice overwrites (the
lookup returns the second component, not the first), and lookup is
case-sensitive (a link registered as "Hello" is not found as "hello"). -/
theorem C3_counterexample :
    (findComponentByName
      (registerComponent (registerComponent emptyLinks "a" (.cls 1)) "a" (.cls 2)) "a").1 =
        some 2 ∧
    (findComponentByName (registerComponent emptyLinks "Hello" (.cls 1)) "hello").1 = none := by
  constructor
  · rfl
  · simp [findComponentByName, registerComponent, emptyLinks]

/-- C3, amended: `registerComponent` stores links in a name-keyed record,
so registering the same name twice overwrites the first link and lookups
return the most recent registration; `findComponentByName` looks up the
exact (case-sensitive) name, and a registration under one name does not
affect the lookup of any other name. -/
theorem C3_amended_registry (links : Links) (name other : String) (r1 r2 : RegisterArg)
    (hne : other ≠ name) :
    (findComponentByName (registerComponent (registerComponent links name r1) name r2) name).1 =
      some r2.value ∧
    (findComponentByName (registerComponent links name r2) other).1 =
      (findComponentByName links other).1 := by
  constructor
  · cases r2 <;> simp [findComponentByName, registerComponent, RegisterArg.value]
  · have h : registerComponent links name r2 other = links other := by
      simp [registerComponent, hne]
    simp only [findComponentByName, h]
    cases links other with
    | none => rfl
    | some link =>
      obtain ⟨nm, sc, sg⟩ := link
      cases sc with
      | some c => rfl
      | none =>
        cases sg with
        | some g => rfl
        | none => rfl

/-- Witness for `C3_amended_registry` at a concrete registry. -/
theorem C3_amended_registry_witness :
    ("b" : String) ≠ "a" ∧
    ((findComponentByName
        (registerComponent (registerComponent emptyLinks "a" (.cls 1)) "a" (.cls 2)) "a").1 =
          some (RegisterArg.cls 2).value ∧
      (findComponentByName (registerComponent emptyLinks "a" (.cls 2)) "b").1 =
        (findComponentByName emptyLinks "b").1) :=
  ⟨by decide, C3_amended_registry emptyLinks "a" "b" (.cls 1) (.cls 2) (by decide)⟩

/-! ## The content watcher's change detection (`createDataObserver`)

A mutation record carries its type and, for child-list records, the
`textContent` of each removed and added node (`none` models a `null`
`textContent`).  The source callback runs
`mutations.find(...)` over the batch; a record counts when it is a
character-data record, or a child-list record whose removed/added node
lists differ in length, or whose nodes differ in `textContent` at some
position (the loop breaks at the first difference). -/

/-- The `MutationRecord.type` values observed by the data observer. -/
inductive MutationType where
| attributes : MutationType
| characterData : MutationType
| childList : MutationType
deriving DecidableEq, Repr

/-- A mutation record, reduced to what the callback reads. -/
structure MutationRecordM where
  mtype : MutationType
  removedNodes : List (Option String)
  addedNodes : List (Option String)

/-- The index loop of the callback: scan both lists in lockstep and stop at
the first position where the text contents differ. -/
def textsDiffer : List (Option String) → List (Option String) → Bool
| r :: rs, a :: as2 => if r ≠ a then true else textsDiffer rs as2
| _, _ => false

/-- The per-record predicate of the `find` in `createDataObserver`. -/
def recordSignalsContentChange (m : MutationRecordM) : Bool :=
  match m.mtype with
  | .characterData => true
  | .childList =>
    if m.removedNodes.length ≠ m.addedNodes.length then true
    else textsDiffer m.removedNodes m.addedNodes
  | .attributes => false

/-- `haveCharactersChanged`: the truthiness of
`mutations.find((m) => ...)` over the record batch. -/
def haveCharactersChanged (ms : List MutationRecordM) : Bool :=
  ms.any recordSignalsContentChange

theorem textsDiffer_iff (r : List (Option String)) :
    ∀ a : List (Option String), r.length = a.length →
      (textsDiffer r a = true ↔ r ≠ a) := by
  induction r with
  | nil =>
    intro a hlen
    cases a with
    | nil => simp [textsDiffer]
    | cons b bs => simp at hlen
  | cons x xs ih =>
    intro a hlen
    cases a with
    | nil => simp at hlen
    | cons b bs =>
      simp only [List.length_cons, Nat.add_right_cancel_iff] at hlen
      by_cases hxb : x = b
      · subst hxb
        simp only [textsDiffer, ne_eq, not_true_eq_false, if_neg, List.cons.injEq,
          true_and]
        exact ih bs hlen
      · simp [textsDiffer, hxb]

/-- C10: the content watcher counts a record as a content change exactly
when it is a character-data record, or a child-list record whose removed
and added node lists are not pointwise equal in text (in particular, a
child-list record with equal length and identical text at every index
does not count, while length or text differences always count); an
attribute record never counts. -/
theorem C10_content_change_predicate (m : MutationRecordM) :
    recordSignalsContentChange m = true ↔
      (m.mtype = .characterData ∨
        (m.mtype = .childList ∧ m.removedNodes ≠ m.addedNodes)) := by
  cases hm : m.mtype with
  | attributes => simp [recordSignalsContentChange, hm]
  | characterData => simp [recordSignalsContentChange, hm]
  | childList =>
    simp only [recordSignalsContentChange, hm]
    by_cases hlen : m.removedNodes.length = m.addedNodes.length
    · rw [if_neg (by omega)]
      rw [textsDiffer_iff m.removedNodes m.addedNodes hlen]
      simp
    · rw [if_pos (by omega)]
      have hne : m.removedNodes ≠ m.addedNodes := fun he => hlen (by rw [he])
      simp [hne]

/-! ## The lifecycle engine and the Shared Registry Store

DOM nodes are identified by `Nat` ids; the attributes the injector reads and
writes live in `NodeData`.  Managed elements (`SvelteElement` objects) are
identified by `Nat` ids allocated in creation order, with their mutable
fields in a heap, so that JavaScript reference equality (`Array.indexOf`,
`components.find`) is id equality.  `undefined` values are `none`
(`props` / `toRender` after a failed parse), and a `NaN` index is
`none : Option Int`.  The `updateCalls` counter observes how many times
`components.update` ran (each run notifies the store's subscribers).

The event loop is single threaded and the model sequentialises the
`Promise.allSettled` / `Promise.all` phases of `hydrate` in document order;
all registry-store mutations are atomic with respect to `await` points, as
in the source. -/

/-- The attributes of a host DOM node that the injector touches. -/
structure NodeData where
  componentName : Option String
  indexAttr : Option String
  toRenderAttr : Option String
  propsText : Option String
  display : String
deriving Repr

/-- A managed element (`SvelteElement`): its bound node, resolved component,
props, render flag, recovered index and sanitized options. -/
structure ElemData where
  nodeId : Nat
  comp : Nat
  props : Option Json
  toRender : Option Json
  index : Option Int
  observe : Bool
  observeParents : Bool

/-- The module state: the host DOM, the element heap, the shared registry
store (`components`, as ordered element ids), the allocator, `lastIndex`,
the `links` registry, and the store-update counter. -/
structure InjState where
  dom : Nat → NodeData
  heap : Nat → ElemData
  store : List Nat
  nextElemId : Nat
  lastIndex : Int
  links : Links
  updateCalls : Nat

/-- `String(i)` for an index that may be `NaN`. -/
def indexToString : Option Int → String
| none => "NaN"
| some i => String.mk (intToChars i)

/-- `Number.parseInt`: skip whitespace, optional sign, leading digits;
`none` models `NaN`. -/
def parseIntM (s : String) : Option Int :=
  match skipWs s.data with
  | [] => none
  | c :: cs =>
    if c = '-' then (parseDigits cs none).map fun p => -(p.1 : Int)
    else if c = '+' then (parseDigits cs none).map fun p => (p.1 : Int)
    else (parseDigits (c :: cs) none).map fun p => (p.1 : Int)

/-- `String.prototype.trim`. -/
def jsTrim (s : String) : String :=
  String.mk (((skipWs s.data).reverse |> skipWs).reverse)

/-- `Array.prototype.indexOf` under reference equality: first index or
`-1`. -/
def jsIndexOf (l : List Nat) (x : Nat) : Int :=
  if x ∈ l then (l.indexOf x : Int) else -1

/-- The removal part of `Array.prototype.splice(start, delCount)`: a
negative `start` counts from the end (clamped at 0). -/
def jsSpliceRemove (l : List Nat) (start : Int) (delCount : Nat) : List Nat :=
  let s : Nat := if start < 0 then (max ((l.length : Int) + start) 0).toNat
    else min start.toNat l.length
  l.take s ++ l.drop (s + delCount)

/-- `extractProps`: read the trimmed props text of the node's
`template.props`; empty or absent yields `{}`; otherwise decode or parse
depending on the `%7B` sniff; a caught parse error leaves the result
`undefined` (`none`). -/
def extractProps (nd : NodeData) : Option Json :=
  match nd.propsText with
  | none => some (Json.obj [])
  | some raw =>
    let props := jsTrim raw
    if props = "" then some (Json.obj [])
    else if "%7B".data.isPrefixOf props.data then decodeProps props
    else parseProps props

/-- `extractToRender`: absent or empty attribute defaults to `true`;
otherwise `JSON.parse`, a caught error leaving `undefined` (`none`). -/
def extractToRender (nd : NodeData) : Option Json :=
  match nd.toRenderAttr with
  | none => some (Json.bool true)
  | some s => if s = "" then some (Json.bool true) else parseProps s

/-- `extractIndexOrCreateNew`: reuse a truthy index attribute via
`Number.parseInt`, else assign `++lastIndex` and write it onto the node. -/
def extractIndexOrCreateNew (st : InjState) (nid : Nat) : Option Int × InjState :=
  let nd := st.dom nid
  if nd.indexAttr.getD "" ≠ "" then (parseIntM (nd.indexAttr.getD ""), st)
  else
    let idx := st.lastIndex + 1
    (some idx,
      { st with
        lastIndex := idx,
        dom := fun m =>
          if m = nid then { nd with indexAttr := some (String.mk (intToChars idx)) }
          else st.dom m })

/-- `findElementByIndex`: scan a store snapshot for an element whose
`index.toString()` equals the requested one. -/
def findElementByIndex (st : InjState) (idx : Option Int) (snapshot : List Nat) : Option Nat :=
  snapshot.find? fun eid => indexToString (st.heap eid).index == indexToString idx

/-- A parsed `SvelteBaseElement`. -/
structure BaseElem where
  nodeId : Nat
  comp : Nat
  props : Option Json
  toRender : Option Json
  index : Option Int

/-- `parseElement`: reject when the node has no truthy component name or
the name does not resolve; otherwise read props, render flag and index. -/
def parseElement (st : InjState) (nid : Nat) : Option BaseElem × InjState :=
  let nd := st.dom nid
  if nd.componentName.getD "" = "" then (none, st)
  else
    let name := nd.componentName.getD ""
    let res := findComponentByName st.links name
    match res.1 with
    | none => (none, { st with links := res.2 })
    | some comp =>
      let props := extractProps nd
      let toRender := extractToRender nd
      let st1 := { st with links := res.2 }
      let r := extractIndexOrCreateNew st1 nid
      (some ⟨nid, comp, props, toRender, r.1⟩, r.2)

/-- `enhanceBaseElement`: reject on an index collision against the current
store; otherwise apply `display: contents` when a component name is
declared and turn the base element into a managed element (`none` models
the rejected promise, leaving state untouched). -/
def enhanceBaseElement (st : InjState) (be : BaseElem) (obs obsP : Bool) :
    Option Nat × InjState :=
  match findElementByIndex st be.index st.store with
  | some _ => (none, st)
  | none =>
    let st1 :=
      if (st.dom be.nodeId).componentName.getD "" ≠ "" then
        { st with
          dom := fun m =>
            if m = be.nodeId then { st.dom be.nodeId with display := "contents" }
            else st.dom m }
      else st
    let eid := st1.nextElemId
    (some eid,
      { st1 with
        heap := fun e =>
          if e = eid then
            ⟨be.nodeId, be.comp, be.props, be.toRender, be.index, obs, obsP⟩
          else st1.heap e,
        nextElemId := eid + 1 })

/-- `addComponents`: one `components.update` pushing each element unless an
element with the same index is already present (checked against the
accumulating array). -/
def addComponents (st : InjState) (eids : List Nat) : InjState :=
  { st with
    store := eids.foldl
      (fun acc eid =>
        if (acc.find? fun e2 =>
            indexToString (st.heap e2).index == indexToString (st.heap eid).index).isSome
        then acc else acc ++ [eid])
      st.store,
    updateCalls := st.updateCalls + 1 }

/-- `setProps` (the body of `SvelteElement.updateProps`): replace the props
wholesale and push one store update. -/
def setProps (st : InjState) (eid : Nat) (props : Option Json) : InjState :=
  { st with
    heap := fun e => if e = eid then { st.heap eid with props := props } else st.heap e,
    updateCalls := st.updateCalls + 1 }

/-- `setToRender`: strict-compare the flag and do nothing when unchanged;
otherwise set it and push one store update. -/
def setToRender (st : InjState) (eid : Nat) (v : Option Json) : InjState :=
  if (st.heap eid).toRender ≠ v then
    { st with
      heap := fun e => if e = eid then { st.heap eid with toRender := v } else st.heap e,
      updateCalls := st.updateCalls + 1 }
  else st

/-- `destroyElement`: disconnect the observers (no observable store effect)
and splice the element out of the store at `indexOf`. -/
def destroyElement (st : InjState) (eid : Nat) : InjState :=
  { st with
    store := jsSpliceRemove st.store (jsIndexOf st.store eid) 1,
    updateCalls := st.updateCalls + 1 }

/-- The `createDataObserver` callback on a mutation batch: an attribute
record re-reads the render flag, a content change re-parses the props. -/
def dataObserverCallback (st : InjState) (eid : Nat) (ms : List MutationRecordM) : InjState :=
  let st1 :=
    if ms.any (fun m => m.mtype = MutationType.attributes) then
      setToRender st eid (extractToRender (st.dom (st.heap eid).nodeId))
    else st
  if haveCharactersChanged ms then
    setProps st1 eid (extractProps (st1.dom (st1.heap eid).nodeId))
  else st1

/-- The component argument of `create`: a class or a registered name. -/
inductive CompRef where
| byClass (c : Nat) : CompRef
| byName (n : String) : CompRef

/-- `createBaseElement`: resolve the component (rejecting an unknown name)
and assign or recover the node's index. -/
def createBaseElement (st : InjState) (nid : Nat) (ref : CompRef)
    (props : Option Json) (toRender : Option Json) : Option BaseElem × InjState :=
  match ref with
  | .byClass c =>
    let r := extractIndexOrCreateNew st nid
    (some ⟨nid, c, props, toRender, r.1⟩, r.2)
  | .byName n =>
    let res := findComponentByName st.links n
    match res.1 with
    | none => (none, { st with links := res.2 })
    | some c =>
      let st1 := { st with links := res.2 }
      let r := extractIndexOrCreateNew st1 nid
      (some ⟨nid, c, props, toRender, r.1⟩, r.2)

/-- `create`: base element, enhancement (collision → rejection), then one
batched store registration; `none` models the rejected promise. -/
def create (st : InjState) (nid : Nat) (ref : CompRef) (props : Option Json)
    (toRender : Option Json) (obs obsP : Bool) : Option Nat × InjState :=
  match createBaseElement st nid ref props toRender with
  | (none, st1) => (none, st1)
  | (some be, st1) =>
    match enhanceBaseElement st1 be obs obsP with
    | (none, st2) => (none, st2)
    | (some eid, st2) => (some eid, addComponents st2 [eid])

/-- The `Promise.allSettled` phase of `hydrate`: parse every queried
placeholder, keeping per-node failures as `none`. -/
def parseRun : InjState → List Nat → List (Option BaseElem) × InjState
| st, [] => ([], st)
| st, nid :: rest =>
  let r := parseElement st nid
  let rs := parseRun r.2 rest
  (r.1 :: rs.1, rs.2)

/-- The enhancement phase of `hydrate`: each failure is caught
(`catch(console.warn)`) and filtered out. -/
def enhanceRun (obs obsP : Bool) : InjState → List BaseElem → List Nat × InjState
| st, [] => ([], st)
| st, be :: rest =>
  let r := enhanceBaseElement st be obs obsP
  let rs := enhanceRun obs obsP r.2 rest
  (match r.1 with
   | some e => e :: rs.1
   | none => rs.1, rs.2)

/-- `hydrate` over the document-ordered list of queried placeholders:
parse all, keep the fulfilled ones, enhance with per-element catch,
register the created elements in one batch, and resolve with them in
discovery order. -/
def hydrate (st : InjState) (nids : List Nat) (obs obsP : Bool) :
    List Nat × InjState :=
  if nids.isEmpty then ([], st)
  else
    let pr := parseRun st nids
    let bases := pr.1.filterMap id
    let er := enhanceRun obs obsP pr.2 bases
    (er.1, addComponents er.2 er.1)

/-- C1 (code bug): destroying the same element twice is not a no-op.  In a
registry holding elements 0 and 1, destroying element 0 twice leaves the
store empty: the second call's `indexOf` yields `-1` and
`splice(-1, 1)` removes the **last** remaining element (element 1),
contradicting the claimed idempotence. -/
theorem C1_destroy_twice_removes_another_element :
    (destroyElement
      { dom := fun _ => ⟨none, none, none, none, ""⟩,
        heap := fun e => if e = 0 then ⟨0, 0, none, none, some 0, true, true⟩
          else ⟨1, 0, none, none, some 1, true, true⟩,
        store := [0, 1], nextElemId := 2, lastIndex := 1, links := emptyLinks,
        updateCalls := 0 } 0).store = [1] ∧
    (destroyElement (destroyElement
      { dom := fun _ => ⟨none, none, none, none, ""⟩,
        heap := fun e => if e = 0 then ⟨0, 0, none, none, some 0, true, true⟩
          else ⟨1, 0, none, none, some 1, true, true⟩,
        store := [0, 1], nextElemId := 2, lastIndex := 1, links := emptyLinks,
        updateCalls := 0 } 0) 0).store = [] := by
  constructor
  · rfl
  · rfl

/-- C2 (code bug): on malformed property text (`{name: hello}`), the parse
failure is caught (nothing is raised, a diagnostic is logged), but the
update is not skipped: `extractProps` returns `undefined` and the watcher
still calls `updateProps`, overwriting the previously-known props
(`{"name": "world"}`) with `undefined` instead of leaving them in place. -/
theorem C2_malformed_props_set_undefined :
    extractProps ⟨some "hello", some "0", none, some "{name: hello}", "contents"⟩ = none ∧
    ((dataObserverCallback
      { dom := fun _ => ⟨some "hello", some "0", none, some "{name: hello}", "contents"⟩,
        heap := fun _ => ⟨0, 0, some (.obj [("name", .str "world")]), some (.bool true),
          some 0, true, true⟩,
        store := [0], nextElemId := 1, lastIndex := 0, links := emptyLinks,
        updateCalls := 0 } 0 [⟨.characterData, [], []⟩]).heap 0).props = none := by
  constructor
  · decide
  · decide

/-- C9, counterexample: when the element's flag already equals the value,
two `setToRender` calls with that value trigger **zero** store updates,
not exactly one. -/
theorem C9_counterexample :
    (setToRender (setToRender
      { dom := fun _ => ⟨none, none, none, none, ""⟩,
        heap := fun _ => ⟨0, 0, none, some (.bool true), some 0, true, true⟩,
        store := [0], nextElemId := 1, lastIndex := 0, links := emptyLinks,
        updateCalls := 0 } 0 (some (.bool true))) 0 (some (.bool true))).updateCalls = 0 := by
  decide

/-- C9, amended: `setToRender` is a no-op when the value equals the current
render flag, and two successive calls with the same value trigger the
store update at most once: exactly once when the value differs from the
element's current flag, and zero times when it already equals it. -/
theorem C9_amended_setToRender (st : InjState) (eid : Nat) (v : Option Json) :
    setToRender st eid ((st.heap eid).toRender) = st ∧
    (setToRender (setToRender st eid v) eid v).updateCalls =
      st.updateCalls + (if (st.heap eid).toRender = v then 0 else 1) := by
  constructor
  · rw [setToRender, if_neg (by simp)]
  · by_cases h : (st.heap eid).toRender = v
    · have h0 : setToRender st eid v = st := by
        rw [setToRender, if_neg (not_not_intro h)]
      rw [h0, h0, if_pos h]
      rfl
    · have h1 : setToRender st eid v =
          { st with
            heap := fun e => if e = eid then { st.heap eid with toRender := v }
              else st.heap e,
            updateCalls := st.updateCalls + 1 } := by
        rw [setToRender, if_pos (by simpa using h)]
      rw [h1, setToRender, if_neg (by simp), if_neg h]

/-- C5: when `create` targets a node whose recovered index already belongs
to a live element in the store, the call is rejected
(`enhanceBaseElement` fails on the collision) and the whole state — the
store, the existing element, the DOM — is left exactly as it was. -/
theorem C5_create_collision (st : InjState) (nid c : Nat) (props toRender : Option Json)
    (obs obsP : Bool) (s : String) (eid0 : Nat)
    (hattr : (st.dom nid).indexAttr = some s) (hs : s ≠ "")
    (hfound : findElementByIndex st (parseIntM s) st.store = some eid0) :
    create st nid (.byClass c) props toRender obs obsP = (none, st) := by
  rw [create, createBaseElement, extractIndexOrCreateNew, hattr]
  simp only [Option.getD_some, hs, ne_eq, not_false_eq_true, if_pos]
  rw [enhanceBaseElement, hfound]

/-- Witness for `C5_create_collision` at a concrete one-element registry. -/
theorem C5_create_collision_witness :
    (({ dom := fun _ => ⟨some "hello", some "0", none, none, ""⟩,
        heap := fun _ => ⟨0, 0, none, none, some 0, true, true⟩,
        store := [0], nextElemId := 1, lastIndex := 0, links := emptyLinks,
        updateCalls := 0 } : InjState).dom 0).indexAttr = some "0" ∧
    ("0" : String) ≠ "" ∧
    findElementByIndex
      { dom := fun _ => ⟨some "hello", some "0", none, none, ""⟩,
        heap := fun _ => ⟨0, 0, none, none, some 0, true, true⟩,
        store := [0], nextElemId := 1, lastIndex := 0, links := emptyLinks,
        updateCalls := 0 } (parseIntM "0") [0] = some 0 ∧
    create
      { dom := fun _ => ⟨some "hello", some "0", none, none, ""⟩,
        heap := fun _ => ⟨0, 0, none, none, some 0, true, true⟩,
        store := [0], nextElemId := 1, lastIndex := 0, links := emptyLinks,
        updateCalls := 0 } 0 (.byClass 7) (some (Json.obj [])) (some (.bool true)) true true =
      (none,
        { dom := fun _ => ⟨some "hello", some "0", none, none, ""⟩,
          heap := fun _ => ⟨0, 0, none, none, some 0, true, true⟩,
          store := [0], nextElemId := 1, lastIndex := 0, links := emptyLinks,
          updateCalls := 0 }) :=
  ⟨rfl, by decide, by decide,
    C5_create_collision _ 0 7 (some (Json.obj [])) (some (.bool true)) true true "0" 0
      rfl (by decide) (by decide)⟩

/-! ## The hydrate lifecycle: idempotence (C4), failure isolation (C7) and
discovery order (C8)

Characterizations of the three phases of `hydrate` (`parseElement` over
every queried placeholder, `enhanceBaseElement` with per-element catch,
one batched `addComponents`), first over fresh placeholders, then over
already-indexed ones, then in full generality. -/

theorem parseDigits_natToChars_nil (n : Nat) :
    parseDigits (natToChars n) none = some (n, []) := by
  have := @parseDigits_natToChars n [] trivial
  simpa using this

theorem parseIntM_indexToString (j : Int) :
    parseIntM (indexToString (some j)) = some j := by
  rw [indexToString, parseIntM]
  by_cases hneg : j < 0
  · rw [intToChars, if_pos hneg]
    show (match skipWs ('-' :: natToChars j.natAbs) with
      | [] => none
      | c :: cs =>
        if c = '-' then (parseDigits cs none).map fun p => -(p.1 : Int)
        else if c = '+' then (parseDigits cs none).map fun p => (p.1 : Int)
        else (parseDigits (c :: cs) none).map fun p => (p.1 : Int)) = some j
    rw [skipWs_cons_of_not_ws (by decide)]
    show ((parseDigits (natToChars j.natAbs) none).map fun p => -(p.1 : Int)) = some j
    rw [parseDigits_natToChars_nil]
    show some (-(j.natAbs : Int)) = some j
    rw [show ((j.natAbs : Int)) = -j from by omega, neg_neg]
  · rw [intToChars, if_neg hneg]
    obtain ⟨c, l, hcl⟩ : ∃ c l, natToChars j.toNat = c :: l := by
      cases hnc : natToChars j.toNat with
      | nil => exact absurd hnc (natToChars_ne_nil _)
      | cons c l => exact ⟨c, l, rfl⟩
    have hc : isDigitChar c = true := by
      apply natToChars_all_digits
      rw [hcl]; exact List.mem_cons_self c l
    obtain ⟨-, -, -, -, -, -, hm, hws⟩ := digit_excl hc
    have hplus : ¬ c = '+' := by
      intro h; subst h; exact absurd hc (by decide)
    show (match skipWs ((String.mk (natToChars j.toNat)).data) with
      | [] => none
      | c :: cs =>
        if c = '-' then (parseDigits cs none).map fun p => -(p.1 : Int)
        else if c = '+' then (parseDigits cs none).map fun p => (p.1 : Int)
        else (parseDigits (c :: cs) none).map fun p => (p.1 : Int)) = some j
    have hdata : (String.mk (natToChars j.toNat)).data = c :: l := by rw [hcl]
    rw [hdata, skipWs_cons_of_not_ws hws]
    show (if c = '-' then (parseDigits l none).map fun p => -(p.1 : Int)
      else if c = '+' then (parseDigits l none).map fun p => (p.1 : Int)
      else (parseDigits (c :: l) none).map fun p => (p.1 : Int)) = some j
    rw [if_neg hm, if_neg hplus, ← hcl, parseDigits_natToChars_nil]
    simp [Int.toNat_of_nonneg (by omega : (0 : Int) ≤ j)]

theorem indexToString_some_ne_empty (j : Int) : indexToString (some j) ≠ "" := by
  rw [indexToString]
  intro h
  have hd : intToChars j = [] := by
    have := congrArg String.data h
    simpa using this
  rw [intToChars] at hd
  by_cases hneg : j < 0
  · rw [if_pos hneg] at hd; cases hd
  · rw [if_neg hneg] at hd; exact natToChars_ne_nil _ hd

theorem indexToString_some_inj {a b : Int}
    (h : indexToString (some a) = indexToString (some b)) : a = b := by
  have ha := parseIntM_indexToString a
  rw [h, parseIntM_indexToString b] at ha
  exact ((Option.some.injEq _ _).mp ha).symm

/-- A node whose declared component name resolves without consulting a lazy
getter. -/
def ResolvesEager (links : Links) (nd : NodeData) : Prop :=
  nd.componentName.getD "" ≠ "" ∧
  ∃ link c, links (nd.componentName.getD "") = some link ∧ link.svelteComponent = some c

theorem findComponentByName_eager {links : Links} {name : String}
    (h : ∃ link c, links name = some link ∧ link.svelteComponent = some c) :
    ∃ c, findComponentByName links name = (some c, links) := by
  obtain ⟨link, c, hl, hc⟩ := h
  refine ⟨c, ?_⟩
  simp [findComponentByName, hl, hc]

theorem parseElement_fresh (st : InjState) (nid : Nat)
    (hres : ResolvesEager st.links (st.dom nid))
    (hattr : (st.dom nid).indexAttr = none) :
    ∃ c, parseElement st nid =
      (some ⟨nid, c, extractProps (st.dom nid), extractToRender (st.dom nid),
        some (st.lastIndex + 1)⟩,
       { st with
         lastIndex := st.lastIndex + 1,
         dom := fun m =>
           if m = nid then
             { st.dom nid with indexAttr := some (String.mk (intToChars (st.lastIndex + 1))) }
           else st.dom m }) := by
  obtain ⟨hname, hlink⟩ := hres
  obtain ⟨c, hfind⟩ := findComponentByName_eager hlink
  refine ⟨c, ?_⟩
  simp only [parseElement, if_neg (by simpa using hname), hfind,
    extractIndexOrCreateNew, hattr, Option.getD_none, ne_eq, not_true_eq_false,
    if_false, reduceIte]

theorem parseElement_claimed (st : InjState) (nid : Nat) (s : String)
    (hres : ResolvesEager st.links (st.dom nid))
    (hattr : (st.dom nid).indexAttr = some s) (hs : s ≠ "") :
    ∃ c, parseElement st nid =
      (some ⟨nid, c, extractProps (st.dom nid), extractToRender (st.dom nid),
        parseIntM s⟩, st) := by
  obtain ⟨hname, hlink⟩ := hres
  obtain ⟨c, hfind⟩ := findComponentByName_eager hlink
  refine ⟨c, ?_⟩
  simp only [parseElement, if_neg (by simpa using hname), hfind,
    extractIndexOrCreateNew, hattr, Option.getD_some, ne_eq, hs, not_false_eq_true,
    if_pos, if_true]

theorem parseRun_fresh : ∀ (nids : List Nat) (st : InjState),
    nids.Nodup →
    (∀ nid ∈ nids, ResolvesEager st.links (st.dom nid) ∧ (st.dom nid).indexAttr = none) →
    ∃ bases : List BaseElem,
      (parseRun st nids).1 = bases.map some ∧
      bases.map BaseElem.nodeId = nids ∧
      (∃ idxs : List Int, bases.map BaseElem.index = idxs.map some ∧ idxs.Nodup ∧
        ∀ j ∈ idxs, st.lastIndex < j ∧ j ≤ (parseRun st nids).2.lastIndex) ∧
      (parseRun st nids).2.lastIndex = st.lastIndex + nids.length ∧
      (parseRun st nids).2.heap = st.heap ∧
      (parseRun st nids).2.store = st.store ∧
      (parseRun st nids).2.nextElemId = st.nextElemId ∧
      (parseRun st nids).2.links = st.links ∧
      (parseRun st nids).2.updateCalls = st.updateCalls ∧
      (∀ b ∈ bases, ((parseRun st nids).2.dom b.nodeId).indexAttr =
        some (indexToString b.index)) ∧
      (∀ m, m ∉ nids → (parseRun st nids).2.dom m = st.dom m) ∧
      (∀ m, ((parseRun st nids).2.dom m).componentName = (st.dom m).componentName) := by
  intro nids
  induction nids with
  | nil =>
    intro st _ _
    exact ⟨[], rfl, rfl, ⟨[], rfl, List.nodup_nil, by simp⟩, by simp [parseRun], rfl, rfl,
      rfl, rfl, rfl, by simp, fun m _ => rfl, fun m => rfl⟩
  | cons nid rest ih =>
    intro st hnd hall
    obtain ⟨hres, hattr⟩ := hall nid (List.mem_cons_self nid rest)
    obtain ⟨c, hpe⟩ := parseElement_fresh st nid hres hattr
    set stA : InjState :=
      { st with
        lastIndex := st.lastIndex + 1,
        dom := fun m =>
          if m = nid then
            { st.dom nid with indexAttr := some (String.mk (intToChars (st.lastIndex + 1))) }
          else st.dom m } with hstA
    have hnidrest : nid ∉ rest := (List.nodup_cons.mp hnd).1
    have hih := ih stA (List.nodup_cons.mp hnd).2 (by
      intro nid2 h2
      have hne : nid2 ≠ nid := fun he => hnidrest (he ▸ h2)
      obtain ⟨hr2, ha2⟩ := hall nid2 (List.mem_cons_of_mem nid h2)
      constructor
      · show ResolvesEager stA.links (stA.dom nid2)
        have : stA.dom nid2 = st.dom nid2 := by simp [hstA, hne]
        rw [this]
        exact hr2
      · have : stA.dom nid2 = st.dom nid2 := by simp [hstA, hne]
        rw [this]
        exact ha2)
    obtain ⟨bases, hb1, hb2, ⟨idxs, hi1, hi2, hi3⟩, hlastI, hheap, hstore, hnext, hlinks,
      hupd, hdomb, hdomout, hdomname⟩ := hih
    have hrun : parseRun st (nid :: rest) =
        ((some ⟨nid, c, extractProps (st.dom nid), extractToRender (st.dom nid),
          some (st.lastIndex + 1)⟩) :: (parseRun stA rest).1, (parseRun stA rest).2) := by
      rw [parseRun, hpe]
    refine ⟨⟨nid, c, extractProps (st.dom nid), extractToRender (st.dom nid),
      some (st.lastIndex + 1)⟩ :: bases, ?_, ?_, ?_, ?_, ?_, ?_, ?_, ?_, ?_, ?_, ?_, ?_⟩
    · rw [hrun]; simp [hb1]
    · simp [hb2]
    · refine ⟨(st.lastIndex + 1) :: idxs, by simp [hi1], ?_, ?_⟩
      · refine List.nodup_cons.mpr ⟨fun hmem => ?_, hi2⟩
        have := (hi3 _ hmem).1
        simp [hstA] at this
      · intro j hj
        have hlastI2 : (parseRun stA rest).2.lastIndex = st.lastIndex + 1 + rest.length := by
          rw [hlastI]
        rcases List.mem_cons.mp hj with h | h
        · constructor
          · omega
          · rw [hrun]
            simp only []
            rw [hlastI2]
            omega
        · obtain ⟨hlo, hhi⟩ := hi3 j h
          simp [hstA] at hlo
          constructor
          · omega
          · rw [hrun]
            simp only []
            exact hhi
    · rw [hrun]
      simp only [List.length_cons]
      rw [hlastI]
      simp only [hstA]
      omega
    · rw [hrun]
      rw [hheap]
    · rw [hrun]
      rw [hstore]
    · rw [hrun]
      rw [hnext]
    · rw [hrun]
      rw [hlinks]
    · rw [hrun]
      rw [hupd]
    · intro b hb
      rcases List.mem_cons.mp hb with h | h
      · subst h
        rw [hrun]
        simp only []
        rw [hdomout nid hnidrest]
        simp [hstA, indexToString]
      · rw [hrun]
        simp only []
        exact hdomb b h
    · intro m hm
      rw [hrun]
      simp only []
      rw [hdomout m (fun h2 => hm (List.mem_cons_of_mem nid h2))]
      have hmne : m ≠ nid := fun he => hm (he ▸ List.mem_cons_self nid rest)
      simp [hstA, hmne]
    · intro m
      rw [hrun]
      simp only []
      rw [hdomname m]
      by_cases hmn : m = nid
      · subst hmn
        simp [hstA]
      · simp [hstA, hmn]

theorem parseRun_claimed : ∀ (nids : List Nat) (st : InjState),
    (∀ nid ∈ nids, ResolvesEager st.links (st.dom nid) ∧
      (st.dom nid).indexAttr.getD "" ≠ "") →
    ∃ bases : List BaseElem,
      (parseRun st nids).1 = bases.map some ∧
      (parseRun st nids).2 = st ∧
      ∀ b ∈ bases, b.nodeId ∈ nids ∧
        b.index = parseIntM ((st.dom b.nodeId).indexAttr.getD "") := by
  intro nids
  induction nids with
  | nil => intro st _; exact ⟨[], rfl, rfl, by simp⟩
  | cons nid rest ih =>
    intro st hall
    obtain ⟨hres, hattr⟩ := hall nid (List.mem_cons_self nid rest)
    obtain ⟨s, hs, hseq⟩ : ∃ s, (st.dom nid).indexAttr = some s ∧ s ≠ "" := by
      cases ha : (st.dom nid).indexAttr with
      | none => rw [ha] at hattr; simp at hattr
      | some s => exact ⟨s, rfl, by rw [ha] at hattr; simpa using hattr⟩
    obtain ⟨c, hpe⟩ := parseElement_claimed st nid s hres hs hseq
    obtain ⟨bases, hb1, hb2, hb3⟩ := ih st (fun n hn => hall n (List.mem_cons_of_mem nid hn))
    refine ⟨⟨nid, c, extractProps (st.dom nid), extractToRender (st.dom nid),
      parseIntM s⟩ :: bases, ?_, ?_, ?_⟩
    · rw [parseRun, hpe]
      simp [hb1]
    · rw [parseRun, hpe]
      simpa using hb2
    · intro b hb
      rcases List.mem_cons.mp hb with h | h
      · subst h
        exact ⟨List.mem_cons_self nid rest, by simp [hs]⟩
      · obtain ⟨h1, h2⟩ := hb3 b h
        exact ⟨List.mem_cons_of_mem nid h1, h2⟩

theorem findElementByIndex_congr {st1 st2 : InjState} (idx : Option Int)
    (snapshot : List Nat) (h : ∀ eid ∈ snapshot, st1.heap eid = st2.heap eid) :
    findElementByIndex st1 idx snapshot = findElementByIndex st2 idx snapshot := by
  induction snapshot with
  | nil => rfl
  | cons e es ih =>
    rw [findElementByIndex, findElementByIndex, List.find?_cons, List.find?_cons,
      h e (List.mem_cons_self e es)]
    have := ih (fun eid he => h eid (List.mem_cons_of_mem e he))
    cases hc : (indexToString (st2.heap e).index == indexToString idx) with
    | true => rfl
    | false =>
      rw [findElementByIndex, findElementByIndex] at this
      exact this

theorem enhanceBaseElement_fail {st : InjState} {be : BaseElem} (obs obsP : Bool)
    (h : (findElementByIndex st be.index st.store).isSome = true) :
    enhanceBaseElement st be obs obsP = (none, st) := by
  rw [enhanceBaseElement]
  cases hf : findElementByIndex st be.index st.store with
  | some e => rfl
  | none => rw [hf] at h; simp at h

theorem enhanceBaseElement_ok {st : InjState} {be : BaseElem} (obs obsP : Bool)
    (h : findElementByIndex st be.index st.store = none) :
    ∃ st2, enhanceBaseElement st be obs obsP = (some st.nextElemId, st2) ∧
      st2.store = st.store ∧ st2.nextElemId = st.nextElemId + 1 ∧
      st2.lastIndex = st.lastIndex ∧ st2.links = st.links ∧
      st2.updateCalls = st.updateCalls ∧
      st2.heap st.nextElemId =
        ⟨be.nodeId, be.comp, be.props, be.toRender, be.index, obs, obsP⟩ ∧
      (∀ e, e ≠ st.nextElemId → st2.heap e = st.heap e) ∧
      (∀ m, (st2.dom m).indexAttr = (st.dom m).indexAttr ∧
        (st2.dom m).componentName = (st.dom m).componentName) := by
  rw [enhanceBaseElement, h]
  by_cases hcn : (st.dom be.nodeId).componentName.getD "" ≠ ""
  · refine ⟨{ st with
      dom := fun m =>
        if m = be.nodeId then { st.dom be.nodeId with display := "contents" }
        else st.dom m,
      heap := fun e =>
        if e = st.nextElemId then
          ⟨be.nodeId, be.comp, be.props, be.toRender, be.index, obs, obsP⟩
        else st.heap e,
      nextElemId := st.nextElemId + 1 }, by rw [if_pos hcn], rfl, rfl, rfl, rfl, rfl,
      by simp, ?_, ?_⟩
    · intro e he
      simp [he]
    · intro m
      by_cases hm : m = be.nodeId <;> simp [hm]
  · refine ⟨{ st with
      heap := fun e =>
        if e = st.nextElemId then
          ⟨be.nodeId, be.comp, be.props, be.toRender, be.index, obs, obsP⟩
        else st.heap e,
      nextElemId := st.nextElemId + 1 }, by rw [if_neg hcn], rfl, rfl, rfl, rfl, rfl,
      by simp, ?_, ?_⟩
    · intro e he
      simp [he]
    · intro m
      exact ⟨rfl, rfl⟩

theorem enhanceRun_all (obs obsP : Bool) : ∀ (bases : List BaseElem) (st : InjState),
    (∀ eid ∈ st.store, eid < st.nextElemId) →
    (∀ be ∈ bases, findElementByIndex st be.index st.store = none) →
    (enhanceRun obs obsP st bases).1.length = bases.length ∧
    (enhanceRun obs obsP st bases).1.map
      (fun e => (((enhanceRun obs obsP st bases).2).heap e).index) =
        bases.map BaseElem.index ∧
    (enhanceRun obs obsP st bases).1.map
      (fun e => (((enhanceRun obs obsP st bases).2).heap e).nodeId) =
        bases.map BaseElem.nodeId ∧
    (enhanceRun obs obsP st bases).2.store = st.store ∧
    (enhanceRun obs obsP st bases).2.lastIndex = st.lastIndex ∧
    (enhanceRun obs obsP st bases).2.links = st.links ∧
    (enhanceRun obs obsP st bases).2.updateCalls = st.updateCalls ∧
    (enhanceRun obs obsP st bases).2.nextElemId = st.nextElemId + bases.length ∧
    (∀ e, e < st.nextElemId → (enhanceRun obs obsP st bases).2.heap e = st.heap e) ∧
    (∀ m, ((enhanceRun obs obsP st bases).2.dom m).indexAttr = (st.dom m).indexAttr ∧
      ((enhanceRun obs obsP st bases).2.dom m).componentName = (st.dom m).componentName) := by
  intro bases
  induction bases with
  | nil =>
    intro st _ _
    exact ⟨rfl, rfl, rfl, rfl, rfl, rfl, rfl, rfl, fun e _ => rfl, fun m => ⟨rfl, rfl⟩⟩
  | cons be rest ih =>
    intro st hrange hnone
    obtain ⟨st2, heq, hstore, hnext, hlast, hlinks, hupd, hheapnew, hheapold, hdom⟩ :=
      enhanceBaseElement_ok obs obsP (hnone be (List.mem_cons_self be rest))
    have hih := ih st2 (by
        intro eid hm
        rw [hstore] at hm
        have := hrange eid hm
        omega)
      (by
        intro be2 h2
        rw [hstore]
        have hcongr : findElementByIndex st2 be2.index st.store =
            findElementByIndex st be2.index st.store :=
          findElementByIndex_congr be2.index st.store
            (fun eid he => hheapold eid (by have := hrange eid he; omega))
        rw [hcongr]
        exact hnone be2 (List.mem_cons_of_mem be h2))
    obtain ⟨ih1, ih2, ih3, ih4, ih5, ih6, ih7, ih8, ih9, ih10⟩ := hih
    have hrun : enhanceRun obs obsP st (be :: rest) =
        (st.nextElemId :: (enhanceRun obs obsP st2 rest).1,
          (enhanceRun obs obsP st2 rest).2) := by
      rw [enhanceRun, heq]
    have hheapback : ((enhanceRun obs obsP st2 rest).2).heap st.nextElemId =
        ⟨be.nodeId, be.comp, be.props, be.toRender, be.index, obs, obsP⟩ := by
      rw [ih9 st.nextElemId (by omega), hheapnew]
    refine ⟨?_, ?_, ?_, ?_, ?_, ?_, ?_, ?_, ?_, ?_⟩
    · rw [hrun]; simp [ih1]
    · rw [hrun]
      simp only [List.map_cons, hheapback]
      rw [ih2]
    · rw [hrun]
      simp only [List.map_cons, hheapback]
      rw [ih3]
    · rw [hrun]; rw [ih4, hstore]
    · rw [hrun]; rw [ih5, hlast]
    · rw [hrun]; rw [ih6, hlinks]
    · rw [hrun]; rw [ih7, hupd]
    · rw [hrun]
      simp only [List.length_cons]
      rw [ih8, hnext]
      omega
    · intro e he
      rw [hrun]
      simp only []
      rw [ih9 e (by omega), hheapold e (by omega)]
    · intro m
      rw [hrun]
      simp only []
      obtain ⟨d1, d2⟩ := ih10 m
      obtain ⟨e1, e2⟩ := hdom m
      exact ⟨by rw [d1, e1], by rw [d2, e2]⟩

theorem enhanceRun_fail_all (obs obsP : Bool) : ∀ (bases : List BaseElem) (st : InjState),
    (∀ be ∈ bases, (findElementByIndex st be.index st.store).isSome = true) →
    enhanceRun obs obsP st bases = ([], st) := by
  intro bases
  induction bases with
  | nil => intro st _; rfl
  | cons be rest ih =>
    intro st hall
    rw [enhanceRun, enhanceBaseElement_fail obs obsP (hall be (List.mem_cons_self be rest)),
      ih st (fun b hb => hall b (List.mem_cons_of_mem be hb))]

theorem addComponents_fold (st : InjState) : ∀ (eids acc : List Nat),
    (((acc ++ eids).map fun e => indexToString ((st.heap e).index)).Nodup) →
    eids.foldl
      (fun acc eid =>
        if (acc.find? fun e2 =>
            indexToString (st.heap e2).index == indexToString (st.heap eid).index).isSome
        then acc else acc ++ [eid]) acc = acc ++ eids := by
  intro eids
  induction eids with
  | nil => intro acc _; simp
  | cons e es ih =>
    intro acc hnd
    have hdisj : List.Disjoint
        (acc.map fun x => indexToString ((st.heap x).index))
        ((e :: es).map fun x => indexToString ((st.heap x).index)) := by
      apply List.disjoint_of_nodup_append
      rw [← List.map_append]
      exact hnd
    have hmem : ∀ e2 ∈ acc,
        ¬ (indexToString (st.heap e2).index == indexToString (st.heap e).index) = true := by
      intro e2 h2 hbeq
      have heq : indexToString ((st.heap e2).index) = indexToString ((st.heap e).index) :=
        by simpa using hbeq
      have h1 : indexToString ((st.heap e2).index) ∈
          (acc.map fun x => indexToString ((st.heap x).index)) :=
        List.mem_map.mpr ⟨e2, h2, rfl⟩
      have h3 : indexToString ((st.heap e2).index) ∈
          ((e :: es).map fun x => indexToString ((st.heap x).index)) := by
        rw [heq]
        exact List.mem_map.mpr ⟨e, List.mem_cons_self e es, rfl⟩
      exact hdisj h1 h3
    have hfind : (acc.find? fun e2 =>
        indexToString (st.heap e2).index == indexToString (st.heap e).index) = none :=
      List.find?_eq_none.mpr hmem
    rw [List.foldl_cons, hfind]
    simp only [Option.isSome_none, Bool.false_eq_true, if_false]
    have hnd2 : (((acc ++ [e]) ++ es).map fun x =>
        indexToString ((st.heap x).index)).Nodup := by
      rw [← List.append_cons]
      exact hnd
    rw [ih (acc ++ [e]) hnd2]
    simp

theorem addComponents_append {st : InjState} {eids : List Nat}
    (hnd : ((st.store ++ eids).map fun e => indexToString ((st.heap e).index)).Nodup) :
    (addComponents st eids).store = st.store ++ eids := by
  rw [addComponents]
  exact addComponents_fold st eids st.store hnd

theorem addComponents_fold_mem (st : InjState) : ∀ (eids acc : List Nat),
    (∀ e ∈ eids, (indexToString ((st.heap e).index)) ∉
      (acc.map fun x => indexToString ((st.heap x).index))) →
    ((eids.map fun e => indexToString ((st.heap e).index)).Nodup) →
    eids.foldl
      (fun acc eid =>
        if (acc.find? fun e2 =>
            indexToString (st.heap e2).index == indexToString (st.heap eid).index).isSome
        then acc else acc ++ [eid]) acc = acc ++ eids := by
  intro eids
  induction eids with
  | nil => intro acc _ _; simp
  | cons e es ih =>
    intro acc hmemAll hnd
    have hmem : ∀ e2 ∈ acc,
        ¬ (indexToString (st.heap e2).index == indexToString (st.heap e).index) = true := by
      intro e2 h2 hbeq
      have heq : indexToString ((st.heap e2).index) = indexToString ((st.heap e).index) :=
        by simpa using hbeq
      exact hmemAll e (List.mem_cons_self e es)
        (heq ▸ List.mem_map.mpr ⟨e2, h2, rfl⟩)
    have hfind : (acc.find? fun e2 =>
        indexToString (st.heap e2).index == indexToString (st.heap e).index) = none :=
      List.find?_eq_none.mpr hmem
    rw [List.foldl_cons, hfind]
    simp only [Option.isSome_none, Bool.false_eq_true, if_false]
    rw [ih (acc ++ [e]) ?hm ?hn]
    · simp
    case hm =>
      intro e2 h2 hmem2
      rw [List.map_append] at hmem2
      rcases List.mem_append.mp hmem2 with h | h
      · exact hmemAll e2 (List.mem_cons_of_mem e h2) h
      · simp at h
        have hh := (List.nodup_cons.mp hnd).1
        have hm2 : indexToString ((st.heap e).index) ∈
            es.map fun x => indexToString ((st.heap x).index) := by
          rw [← h]; exact List.mem_map.mpr ⟨e2, h2, rfl⟩
        exact hh hm2
    case hn => exact (List.nodup_cons.mp hnd).2

theorem addComponents_append_mem {st : InjState} {eids : List Nat}
    (h1 : ∀ e ∈ eids, (indexToString ((st.heap e).index)) ∉
      (st.store.map fun x => indexToString ((st.heap x).index)))
    (h2 : ((eids.map fun e => indexToString ((st.heap e).index)).Nodup)) :
    (addComponents st eids).store = st.store ++ eids := by
  rw [addComponents]
  exact addComponents_fold_mem st eids st.store h1 h2

/-- A placeholder that fails to parse: no truthy component name, or a name
that is not registered. -/
def BadNode (links : Links) (nd : NodeData) : Prop :=
  nd.componentName.getD "" = "" ∨ links (nd.componentName.getD "") = none

theorem parseElement_bad {st : InjState} {nid : Nat}
    (h : BadNode st.links (st.dom nid)) : parseElement st nid = (none, st) := by
  rcases h with h | h
  · rw [parseElement, if_pos h]
  · rw [parseElement]
    by_cases hc : (st.dom nid).componentName.getD "" = ""
    · rw [if_pos hc]
    · rw [if_neg hc]
      simp only [findComponentByName, h]

theorem parseRun_append : ∀ (l1 l2 : List Nat) (st : InjState),
    parseRun st (l1 ++ l2) =
      ((parseRun st l1).1 ++ (parseRun (parseRun st l1).2 l2).1,
        (parseRun (parseRun st l1).2 l2).2) := by
  intro l1
  induction l1 with
  | nil => intro l2 st; simp [parseRun]
  | cons n ns ih =>
    intro l2 st
    simp only [List.cons_append, parseRun, List.append_eq]
    rw [ih]

theorem filterMap_id_map_some {α : Type} (l : List α) :
    (l.map some).filterMap id = l := by
  induction l with
  | nil => rfl
  | cons x xs ih => simp [ih]

theorem ResolvesEager_congr {links1 links2 : Links} {nd1 nd2 : NodeData}
    (hl : links1 = links2) (hn : nd1.componentName = nd2.componentName) :
    ResolvesEager links1 nd1 ↔ ResolvesEager links2 nd2 := by
  rw [ResolvesEager, ResolvesEager, hl, hn]

theorem indexToString_injOn_some : Function.Injective (fun j : Int => indexToString (some j)) :=
  fun _ _ h => indexToString_some_inj h

theorem enhance_add_all (obs obsP : Bool) (st2 st3 : InjState) (bases : List BaseElem)
    (eids : List Nat)
    (heq : enhanceRun obs obsP st2 bases = (eids, st3))
    (hrange : ∀ eid ∈ st2.store, eid < st2.nextElemId)
    (hnocol : ∀ be ∈ bases, ∀ eid ∈ st2.store,
      indexToString ((st2.heap eid).index) ≠ indexToString be.index)
    (hndidx : (bases.map fun b => indexToString b.index).Nodup) :
    eids.length = bases.length ∧
    (addComponents st3 eids).store = st2.store ++ eids ∧
    (eids.map fun e => ((addComponents st3 eids).heap e).index) = bases.map BaseElem.index ∧
    (∀ e, e < st2.nextElemId → (addComponents st3 eids).heap e = st2.heap e) ∧
    (addComponents st3 eids).links = st2.links ∧
    (∀ m, ((addComponents st3 eids).dom m).indexAttr = (st2.dom m).indexAttr ∧
      ((addComponents st3 eids).dom m).componentName = (st2.dom m).componentName) := by
  have hfind : ∀ be ∈ bases, findElementByIndex st2 be.index st2.store = none := by
    intro be hbe
    rw [findElementByIndex]
    apply List.find?_eq_none.mpr
    intro eid he
    simpa using hnocol be hbe eid he
  obtain ⟨ih1, ih2, ih3, ih4, ih5, ih6, ih7, ih8, ih9, ih10⟩ :=
    enhanceRun_all obs obsP bases st2 hrange hfind
  rw [heq] at ih1 ih2 ih3 ih4 ih5 ih6 ih7 ih8 ih9 ih10
  dsimp only at ih1 ih2 ih3 ih4 ih5 ih6 ih7 ih8 ih9 ih10
  have hmapidx : (eids.map fun e => indexToString ((st3.heap e).index)) =
      bases.map fun b => indexToString b.index := by
    have := congrArg (List.map indexToString) ih2
    simpa [List.map_map, Function.comp] using this
  have haddheap : (addComponents st3 eids).heap = st3.heap := rfl
  have hadddom : (addComponents st3 eids).dom = st3.dom := rfl
  have haddlinks : (addComponents st3 eids).links = st3.links := rfl
  refine ⟨ih1, ?_, ?_, ?_, ?_, ?_⟩
  · have h1 : ∀ e ∈ eids, (indexToString ((st3.heap e).index)) ∉
        (st3.store.map fun x => indexToString ((st3.heap x).index)) := by
      intro e he hmem
      rw [ih4] at hmem
      have hstoreMap : (st2.store.map fun x => indexToString ((st3.heap x).index)) =
          st2.store.map fun x => indexToString ((st2.heap x).index) := by
        apply List.map_congr_left
        intro x hx
        rw [ih9 x (hrange x hx)]
      rw [hstoreMap] at hmem
      obtain ⟨eid0, heid0, heq0⟩ := List.mem_map.mp hmem
      have hinb : indexToString ((st3.heap e).index) ∈
          bases.map fun b => indexToString b.index := by
        rw [← hmapidx]
        exact List.mem_map.mpr ⟨e, he, rfl⟩
      obtain ⟨be, hbe, hbeq⟩ := List.mem_map.mp hinb
      exact hnocol be hbe eid0 heid0 (by rw [heq0, ← hbeq])
    have h2 : ((eids.map fun e => indexToString ((st3.heap e).index)).Nodup) := by
      rw [hmapidx]; exact hndidx
    have := @addComponents_append_mem st3 eids h1 h2
    rw [this, ih4]
  · rw [haddheap]
    exact ih2
  · intro e he
    rw [haddheap]
    exact ih9 e he
  · rw [haddlinks, ih6]
  · intro m
    rw [hadddom]
    exact ih10 m

theorem mem_of_map_eq_map_some {bases : List BaseElem} {idxs : List Int}
    (h : bases.map BaseElem.index = idxs.map some) :
    ∀ be ∈ bases, ∃ j ∈ idxs, be.index = some j := by
  intro be hbe
  have hmem : be.index ∈ idxs.map some := by
    rw [← h]; exact List.mem_map.mpr ⟨be, hbe, rfl⟩
  obtain ⟨j, hj, hjeq⟩ := List.mem_map.mp hmem
  exact ⟨j, hj, hjeq.symm⟩

theorem idxstr_nodup {bases : List BaseElem} {idxs : List Int}
    (h : bases.map BaseElem.index = idxs.map some) (hnd : idxs.Nodup) :
    (bases.map fun b => indexToString b.index).Nodup := by
  have heq : (bases.map fun b => indexToString b.index) =
      idxs.map fun j => indexToString (some j) := by
    have := congrArg (List.map indexToString) h
    simpa [List.map_map, Function.comp] using this
  rw [heq]
  exact hnd.map indexToString_injOn_some

theorem hydrate_fresh (st : InjState) (nids : List Nat) (obs obsP : Bool)
    (hnd : nids.Nodup)
    (hfresh : ∀ nid ∈ nids,
      ResolvesEager st.links (st.dom nid) ∧ (st.dom nid).indexAttr = none)
    (hstore : ∀ eid ∈ st.store,
      (∃ j, (st.heap eid).index = some j ∧ j ≤ st.lastIndex) ∧ eid < st.nextElemId) :
    (hydrate st nids obs obsP).1.length = nids.length ∧
    ∀ nid ∈ nids,
      ResolvesEager (hydrate st nids obs obsP).2.links
        ((hydrate st nids obs obsP).2.dom nid) ∧
      ((hydrate st nids obs obsP).2.dom nid).indexAttr.getD "" ≠ "" ∧
      ∃ eid ∈ (hydrate st nids obs obsP).2.store,
        indexToString (((hydrate st nids obs obsP).2.heap eid).index) =
          indexToString (parseIntM
            (((hydrate st nids obs obsP).2.dom nid).indexAttr.getD "")) := by
  by_cases hemp : nids.isEmpty = true
  · have hnil : nids = [] := List.isEmpty_iff.mp hemp
    subst hnil
    rw [hydrate]
    exact ⟨rfl, by simp⟩
  · obtain ⟨bases, hb1, hb2, ⟨idxs, hi1, hi2, hi3⟩, hlastI, hheap, hstoreEq, hnext, hlinks,
      hupd, hdomb, hdomout, hdomname⟩ := parseRun_fresh nids st hnd hfresh
    set st2 := (parseRun st nids).2 with hst2
    set eids := (enhanceRun obs obsP st2 bases).1 with heids
    set st3 := (enhanceRun obs obsP st2 bases).2 with hst3
    have heq : enhanceRun obs obsP st2 bases = (eids, st3) := rfl
    have hh : hydrate st nids obs obsP = (eids, addComponents st3 eids) := by
      simp only [hydrate, if_neg hemp]
      rw [hb1, filterMap_id_map_some]
    have hrange2 : ∀ eid ∈ st2.store, eid < st2.nextElemId := by
      intro eid he
      rw [hstoreEq] at he
      rw [hnext]
      exact (hstore eid he).2
    have hnocol : ∀ be ∈ bases, ∀ eid ∈ st2.store,
        indexToString ((st2.heap eid).index) ≠ indexToString be.index := by
      intro be hbe eid he
      rw [hstoreEq] at he
      rw [hheap]
      obtain ⟨⟨j', hj', hle⟩, -⟩ := hstore eid he
      obtain ⟨j, hjmem, hbej⟩ := mem_of_map_eq_map_some hi1 be hbe
      rw [hj', hbej]
      intro hcontra
      have hji := indexToString_some_inj hcontra
      have := (hi3 j hjmem).1
      omega
    have hndidx := idxstr_nodup hi1 hi2
    obtain ⟨e1, e2, e3, e4, e5, e6⟩ :=
      enhance_add_all obs obsP st2 st3 bases eids heq hrange2 hnocol hndidx
    constructor
    · rw [hh]
      show eids.length = nids.length
      rw [e1, ← hb2, List.length_map]
    · intro nid hnidmem
      have hbex : ∃ b ∈ bases, b.nodeId = nid := by
        have : nid ∈ bases.map BaseElem.nodeId := by rw [hb2]; exact hnidmem
        obtain ⟨b, hbm, hbeq⟩ := List.mem_map.mp this
        exact ⟨b, hbm, hbeq⟩
      obtain ⟨b, hbmem, hbnode⟩ := hbex
      obtain ⟨j, hjmem, hbj⟩ := mem_of_map_eq_map_some hi1 b hbmem
      have hattr : ((addComponents st3 eids).dom nid).indexAttr =
          some (indexToString b.index) := by
        rw [(e6 nid).1, ← hbnode]
        exact hdomb b hbmem
      rw [hh]
      refine ⟨?_, ?_, ?_⟩
      · refine (ResolvesEager_congr ?_ ?_).mpr (hfresh nid hnidmem).1
        · show (addComponents st3 eids).links = st.links
          rw [e5, hlinks]
        · show ((addComponents st3 eids).dom nid).componentName =
            (st.dom nid).componentName
          rw [(e6 nid).2, hdomname]
      · show ((addComponents st3 eids).dom nid).indexAttr.getD "" ≠ ""
        rw [hattr, Option.getD_some, hbj]
        exact indexToString_some_ne_empty j
      · show ∃ eid ∈ (addComponents st3 eids).store,
          indexToString (((addComponents st3 eids).heap eid).index) =
            indexToString (parseIntM
              (((addComponents st3 eids).dom nid).indexAttr.getD ""))
        have hbidx : b.index ∈ eids.map fun e => ((addComponents st3 eids).heap e).index := by
          rw [e3]
          exact List.mem_map.mpr ⟨b, hbmem, rfl⟩
        obtain ⟨e0, he0, he0eq⟩ := List.mem_map.mp hbidx
        refine ⟨e0, ?_, ?_⟩
        · rw [e2, hstoreEq]
          exact List.mem_append.mpr (Or.inr he0)
        · rw [hattr, Option.getD_some, hbj, parseIntM_indexToString, he0eq, hbj]

theorem hydrate_claimed (st : InjState) (nids : List Nat) (obs obsP : Bool)
    (hall : ∀ nid ∈ nids, ResolvesEager st.links (st.dom nid) ∧
      (st.dom nid).indexAttr.getD "" ≠ "" ∧
      ∃ eid ∈ st.store, indexToString ((st.heap eid).index) =
        indexToString (parseIntM ((st.dom nid).indexAttr.getD ""))) :
    (hydrate st nids obs obsP).1 = [] ∧
    (hydrate st nids obs obsP).2.store = st.store := by
  by_cases hemp : nids.isEmpty = true
  · rw [hydrate, if_pos hemp]
    exact ⟨rfl, rfl⟩
  · obtain ⟨bases, hb1, hb2, hb3⟩ :=
      parseRun_claimed nids st (fun n hn => ⟨(hall n hn).1, (hall n hn).2.1⟩)
    have hfail : ∀ be ∈ bases, (findElementByIndex st be.index st.store).isSome = true := by
      intro be hbe
      obtain ⟨hmem, hidx⟩ := hb3 be hbe
      obtain ⟨-, -, eid, heid, heq'⟩ := hall be.nodeId hmem
      rw [findElementByIndex]
      apply List.find?_isSome.mpr
      refine ⟨eid, heid, ?_⟩
      rw [← hidx] at heq'
      simpa using heq'
    have her : enhanceRun obs obsP st bases = ([], st) :=
      enhanceRun_fail_all obs obsP bases st hfail
    have hh : hydrate st nids obs obsP = ([], addComponents st []) := by
      simp only [hydrate, if_neg hemp]
      rw [hb1, hb2, filterMap_id_map_some, her]
    rw [hh]
    exact ⟨rfl, rfl⟩

/-- C4: hydrating a batch of fresh, distinct, resolvable placeholders over a
well-formed registry creates exactly one managed element per placeholder,
and a second hydrate over the exact same (now index-carrying) subtree
creates zero additional elements and leaves the store identical. -/
theorem C4_hydrate_idempotent (st : InjState) (nids : List Nat) (obs obsP : Bool)
    (hnd : nids.Nodup)
    (hfresh : ∀ nid ∈ nids,
      ResolvesEager st.links (st.dom nid) ∧ (st.dom nid).indexAttr = none)
    (hstore : ∀ eid ∈ st.store,
      (∃ j, (st.heap eid).index = some j ∧ j ≤ st.lastIndex) ∧ eid < st.nextElemId) :
    (hydrate st nids obs obsP).1.length = nids.length ∧
    (hydrate (hydrate st nids obs obsP).2 nids obs obsP).1 = [] ∧
    (hydrate (hydrate st nids obs obsP).2 nids obs obsP).2.store =
      (hydrate st nids obs obsP).2.store := by
  obtain ⟨h1, h2⟩ := hydrate_fresh st nids obs obsP hnd hfresh hstore
  obtain ⟨h3, h4⟩ := hydrate_claimed (hydrate st nids obs obsP).2 nids obs obsP h2
  exact ⟨h1, h3, h4⟩

/-- A concrete placeholder node declaring component `Hello`. -/
def c4Node : NodeData :=
  { componentName := some "Hello", indexAttr := none, toRenderAttr := none,
    propsText := none, display := "" }

/-- A concrete module state with one registered component and an empty
store. -/
def c4State : InjState :=
  { dom := fun _ => c4Node,
    heap := fun _ => ⟨0, 0, none, none, none, false, false⟩,
    store := [], nextElemId := 0, lastIndex := 0,
    links := registerComponent emptyLinks "Hello" (.cls 7),
    updateCalls := 0 }

/-- Witness for `C4_hydrate_idempotent` at a concrete one-placeholder
subtree. -/
theorem C4_hydrate_idempotent_witness :
    (hydrate c4State [0] false false).1.length = 1 ∧
    (hydrate (hydrate c4State [0] false false).2 [0] false false).1 = [] ∧
    (hydrate (hydrate c4State [0] false false).2 [0] false false).2.store =
      (hydrate c4State [0] false false).2.store :=
  C4_hydrate_idempotent c4State [0] false false (by decide)
    (by
      intro nid hm
      have hn0 : nid = 0 := by simpa using hm
      subst hn0
      exact ⟨⟨by decide, ⟨⟨"Hello", some 7, none⟩, 7, by decide, rfl⟩⟩, rfl⟩)
    (fun eid h => absurd h (List.not_mem_nil eid))

/-- C7: one broken placeholder (untruthy or unregistered component name) in
the middle of a hydrate batch is skipped, and every other placeholder is
still hydrated: the batch yields one created element per good placeholder. -/
theorem C7_hydrate_isolated_failure (st : InjState) (good1 good2 : List Nat) (bad : Nat)
    (obs obsP : Bool)
    (hnd : (good1 ++ bad :: good2).Nodup)
    (hbad : BadNode st.links (st.dom bad))
    (hfresh : ∀ nid ∈ good1 ++ good2,
      ResolvesEager st.links (st.dom nid) ∧ (st.dom nid).indexAttr = none)
    (hstore : ∀ eid ∈ st.store,
      (∃ j, (st.heap eid).index = some j ∧ j ≤ st.lastIndex) ∧ eid < st.nextElemId) :
    (hydrate st (good1 ++ bad :: good2) obs obsP).1.length =
      good1.length + good2.length := by
  have hemp : ¬ (good1 ++ bad :: good2).isEmpty = true := by
    simp [List.isEmpty_iff]
  obtain ⟨hnd1, hndc, hdisj⟩ := List.nodup_append.mp hnd
  have hnd2 : good2.Nodup := (List.nodup_cons.mp hndc).2
  have hbadnot1 : bad ∉ good1 := fun h => hdisj h (List.mem_cons_self bad good2)
  have hnotin1 : ∀ x ∈ good2, x ∉ good1 :=
    fun x hx h1 => hdisj h1 (List.mem_cons_of_mem bad hx)
  obtain ⟨bases1, ha1, ha2, ⟨idxs1, hia1, hia2, hia3⟩, halast, haheap, hastore, hanext,
      halinks, haupd, hadomb, hadomout, hadomname⟩ :=
    parseRun_fresh good1 st hnd1
      (fun nid h => hfresh nid (List.mem_append.mpr (Or.inl h)))
  set stM := (parseRun st good1).2 with hstM
  have hpbad : parseElement stM bad = (none, stM) := by
    apply parseElement_bad
    rw [hadomout bad hbadnot1]
    show BadNode stM.links (st.dom bad)
    rw [halinks]
    exact hbad
  obtain ⟨bases2, hc1, hc2, ⟨idxs2, hic1, hic2, hic3⟩, hclast, hcheap, hcstore, hcnext,
      hclinks, hcupd, hcdomb, hcdomout, hcdomname⟩ :=
    parseRun_fresh good2 stM hnd2
      (by
        intro nid h
        have hd : stM.dom nid = st.dom nid := hadomout nid (hnotin1 nid h)
        have hl : stM.links = st.links := halinks
        rw [hd, hl]
        exact hfresh nid (List.mem_append.mpr (Or.inr h)))
  set st2 := (parseRun stM good2).2 with hst2
  have hmid : parseRun stM (bad :: good2) =
      (none :: (parseRun stM good2).1, st2) := by
    rw [parseRun, hpbad]
  have hsplit : parseRun st (good1 ++ bad :: good2) =
      (bases1.map some ++ none :: bases2.map some, st2) := by
    rw [parseRun_append good1 (bad :: good2) st, ← hstM, hmid]
    rw [ha1, hc1]
  have hfm : (bases1.map some ++ none :: bases2.map some).filterMap id =
      bases1 ++ bases2 := by
    rw [List.filterMap_append, List.filterMap_cons]
    simp only [id]
    rw [filterMap_id_map_some, filterMap_id_map_some]
  set bases := bases1 ++ bases2 with hbases
  set eids := (enhanceRun obs obsP st2 bases).1 with heids
  set st3 := (enhanceRun obs obsP st2 bases).2 with hst3
  have heq : enhanceRun obs obsP st2 bases = (eids, st3) := rfl
  have hh : hydrate st (good1 ++ bad :: good2) obs obsP =
      (eids, addComponents st3 eids) := by
    simp only [hydrate, if_neg hemp]
    rw [hsplit]
    dsimp only
    rw [hfm]
  have hstore2 : st2.store = st.store := by rw [hcstore, hastore]
  have hheap2 : st2.heap = st.heap := by rw [hcheap, haheap]
  have hnext2 : st2.nextElemId = st.nextElemId := by rw [hcnext, hanext]
  have hrange2 : ∀ eid ∈ st2.store, eid < st2.nextElemId := by
    intro eid he
    rw [hstore2] at he
    rw [hnext2]
    exact (hstore eid he).2
  have hgt : ∀ be ∈ bases, ∃ j, be.index = some j ∧ st.lastIndex < j := by
    intro be hbe
    rcases List.mem_append.mp hbe with h | h
    · obtain ⟨j, hjm, hje⟩ := mem_of_map_eq_map_some hia1 be h
      exact ⟨j, hje, (hia3 j hjm).1⟩
    · obtain ⟨j, hjm, hje⟩ := mem_of_map_eq_map_some hic1 be h
      refine ⟨j, hje, ?_⟩
      have h1 := (hic3 j hjm).1
      have h2 : stM.lastIndex = st.lastIndex + good1.length := halast
      omega
  have hnocol : ∀ be ∈ bases, ∀ eid ∈ st2.store,
      indexToString ((st2.heap eid).index) ≠ indexToString be.index := by
    intro be hbe eid he
    rw [hstore2] at he
    rw [hheap2]
    obtain ⟨⟨j2, hj2, hle⟩, -⟩ := hstore eid he
    obtain ⟨j, hje, hgtj⟩ := hgt be hbe
    rw [hj2, hje]
    intro hcontra
    have := indexToString_some_inj hcontra
    omega
  have hidl : bases.map BaseElem.index = (idxs1 ++ idxs2).map some := by
    rw [hbases, List.map_append, hia1, hic1, List.map_append]
  have hidnd : (idxs1 ++ idxs2).Nodup := by
    refine List.nodup_append.mpr ⟨hia2, hic2, ?_⟩
    intro j hj1 hj2
    have h1 := (hia3 j hj1).2
    have h2 := (hic3 j hj2).1
    omega
  obtain ⟨e1, e2, e3, e4, e5, e6⟩ :=
    enhance_add_all obs obsP st2 st3 bases eids heq hrange2 hnocol
      (idxstr_nodup hidl hidnd)
  rw [hh]
  show eids.length = good1.length + good2.length
  rw [e1, hbases, List.length_append, ← ha2, ← hc2, List.length_map, List.length_map]

/-- A module state whose node 1 has no component name while nodes 0 and 2
declare the registered `Hello`. -/
def c7State : InjState :=
  { dom := fun n =>
      if n = 1 then
        { componentName := none, indexAttr := none, toRenderAttr := none,
          propsText := none, display := "" }
      else c4Node,
    heap := fun _ => ⟨0, 0, none, none, none, false, false⟩,
    store := [], nextElemId := 0, lastIndex := 0,
    links := registerComponent emptyLinks "Hello" (.cls 7),
    updateCalls := 0 }

/-- Witness for `C7_hydrate_isolated_failure`: among placeholders 0, 1, 2
with the broken one in the middle, hydrate still creates two elements. -/
theorem C7_hydrate_isolated_failure_witness :
    (hydrate c7State [0, 1, 2] false false).1.length = 2 :=
  C7_hydrate_isolated_failure c7State [0] [2] 1 false false (by decide)
    (Or.inl (by decide))
    (by
      intro nid hm
      have h02 : nid = 0 ∨ nid = 2 := by simpa using hm
      rcases h02 with h | h <;> subst h <;>
        exact ⟨⟨by decide, ⟨⟨"Hello", some 7, none⟩, 7, by decide, rfl⟩⟩, rfl⟩)
    (fun eid h => absurd h (List.not_mem_nil eid))

theorem extractIndexOrCreateNew_general (st : InjState) (nid : Nat) :
    (extractIndexOrCreateNew st nid).2.heap = st.heap ∧
    (extractIndexOrCreateNew st nid).2.nextElemId = st.nextElemId ∧
    (extractIndexOrCreateNew st nid).2.store = st.store := by
  simp only [extractIndexOrCreateNew]
  by_cases h : (st.dom nid).indexAttr.getD "" ≠ ""
  · rw [if_pos h]
    exact ⟨rfl, rfl, rfl⟩
  · rw [if_neg h]
    exact ⟨rfl, rfl, rfl⟩

theorem parseElement_general (st : InjState) (nid : Nat) :
    (parseElement st nid).2.heap = st.heap ∧
    (parseElement st nid).2.nextElemId = st.nextElemId ∧
    (parseElement st nid).2.store = st.store ∧
    ∀ be, (parseElement st nid).1 = some be → be.nodeId = nid := by
  simp only [parseElement]
  by_cases h : (st.dom nid).componentName.getD "" = ""
  · rw [if_pos h]
    exact ⟨rfl, rfl, rfl, fun be hbe => Option.noConfusion hbe⟩
  · rw [if_neg h]
    cases hf : (findComponentByName st.links ((st.dom nid).componentName.getD "")).1 with
    | none => exact ⟨rfl, rfl, rfl, fun be hbe => Option.noConfusion hbe⟩
    | some comp =>
      obtain ⟨hh, hn, hs⟩ := extractIndexOrCreateNew_general
        { st with links := (findComponentByName st.links
            ((st.dom nid).componentName.getD "")).2 } nid
      refine ⟨hh, hn, hs, ?_⟩
      intro be hbe
      cases Option.some.inj hbe
      rfl

theorem parseRun_general : ∀ (nids : List Nat) (st : InjState),
    (((parseRun st nids).1.filterMap id).map BaseElem.nodeId).Sublist nids ∧
    (parseRun st nids).2.heap = st.heap ∧
    (parseRun st nids).2.nextElemId = st.nextElemId ∧
    (parseRun st nids).2.store = st.store := by
  intro nids
  induction nids with
  | nil => intro st; exact ⟨List.Sublist.refl _, rfl, rfl, rfl⟩
  | cons nid rest ih =>
    intro st
    obtain ⟨g1, g2, g3, g4⟩ := parseElement_general st nid
    obtain ⟨i1, i2, i3, i4⟩ := ih (parseElement st nid).2
    have hrun : parseRun st (nid :: rest) =
        ((parseElement st nid).1 :: (parseRun (parseElement st nid).2 rest).1,
          (parseRun (parseElement st nid).2 rest).2) := by
      rw [parseRun]
    rw [hrun]
    refine ⟨?_, ?_, ?_, ?_⟩
    · dsimp only
      cases hp : (parseElement st nid).1 with
      | none =>
        simp only [List.filterMap_cons, id_eq]
        exact List.Sublist.cons nid i1
      | some be =>
        simp only [List.filterMap_cons, id_eq, List.map_cons]
        rw [g4 be hp]
        exact List.Sublist.cons₂ nid i1
    · dsimp only; rw [i2, g1]
    · dsimp only; rw [i3, g2]
    · dsimp only; rw [i4, g3]

theorem enhanceBaseElement_general (st : InjState) (be : BaseElem) (obs obsP : Bool) :
    (∀ e, e < st.nextElemId →
      (enhanceBaseElement st be obs obsP).2.heap e = st.heap e) ∧
    st.nextElemId ≤ (enhanceBaseElement st be obs obsP).2.nextElemId ∧
    ((enhanceBaseElement st be obs obsP).1 = none →
      (enhanceBaseElement st be obs obsP).2 = st) ∧
    (∀ eid, (enhanceBaseElement st be obs obsP).1 = some eid →
      eid = st.nextElemId ∧
      (enhanceBaseElement st be obs obsP).2.nextElemId = st.nextElemId + 1 ∧
      ((enhanceBaseElement st be obs obsP).2.heap eid).nodeId = be.nodeId) := by
  simp only [enhanceBaseElement]
  cases hf : findElementByIndex st be.index st.store with
  | some e0 =>
    exact ⟨fun e _ => rfl, le_refl _, fun _ => rfl, fun eid h => Option.noConfusion h⟩
  | none =>
    by_cases hcn : (st.dom be.nodeId).componentName.getD "" ≠ ""
    · rw [if_pos hcn]
      refine ⟨?_, ?_, ?_, ?_⟩
      · intro e he
        have hne : e ≠ st.nextElemId := Nat.ne_of_lt he
        simp [hne]
      · show st.nextElemId ≤ st.nextElemId + 1
        omega
      · intro h
        exact Option.noConfusion h
      · intro eid h
        have heid : eid = st.nextElemId := (Option.some.inj h).symm
        subst heid
        exact ⟨rfl, rfl, by simp⟩
    · rw [if_neg hcn]
      refine ⟨?_, ?_, ?_, ?_⟩
      · intro e he
        have hne : e ≠ st.nextElemId := Nat.ne_of_lt he
        simp [hne]
      · show st.nextElemId ≤ st.nextElemId + 1
        omega
      · intro h
        exact Option.noConfusion h
      · intro eid h
        have heid : eid = st.nextElemId := (Option.some.inj h).symm
        subst heid
        exact ⟨rfl, rfl, by simp⟩

theorem enhanceRun_general (obs obsP : Bool) : ∀ (bases : List BaseElem) (st : InjState),
    ((enhanceRun obs obsP st bases).1.map
      (fun e => (((enhanceRun obs obsP st bases).2).heap e).nodeId)).Sublist
      (bases.map BaseElem.nodeId) ∧
    (∀ e, e < st.nextElemId → (enhanceRun obs obsP st bases).2.heap e = st.heap e) ∧
    st.nextElemId ≤ (enhanceRun obs obsP st bases).2.nextElemId := by
  intro bases
  induction bases with
  | nil => intro st; exact ⟨List.Sublist.refl _, fun e _ => rfl, le_refl _⟩
  | cons be rest ih =>
    intro st
    obtain ⟨g1, g2, g3, g4⟩ := enhanceBaseElement_general st be obs obsP
    obtain ⟨i1, i2, i3⟩ := ih (enhanceBaseElement st be obs obsP).2
    have hrun : enhanceRun obs obsP st (be :: rest) =
        ((match (enhanceBaseElement st be obs obsP).1 with
          | some e => e :: (enhanceRun obs obsP (enhanceBaseElement st be obs obsP).2 rest).1
          | none => (enhanceRun obs obsP (enhanceBaseElement st be obs obsP).2 rest).1),
         (enhanceRun obs obsP (enhanceBaseElement st be obs obsP).2 rest).2) := by
      rw [enhanceRun]
    cases hr : (enhanceBaseElement st be obs obsP).1 with
    | none =>
      have hst : (enhanceBaseElement st be obs obsP).2 = st := g3 hr
      rw [hrun, hr]
      dsimp only
      rw [hst] at i1 i2 i3 ⊢
      refine ⟨?_, i2, i3⟩
      rw [List.map_cons]
      exact List.Sublist.cons _ i1
    | some eid =>
      obtain ⟨heid, hnext1, hnode⟩ := g4 eid hr
      rw [hrun, hr]
      dsimp only
      have hheapeid :
          (enhanceRun obs obsP (enhanceBaseElement st be obs obsP).2 rest).2.heap eid =
            (enhanceBaseElement st be obs obsP).2.heap eid := by
        apply i2
        omega
      refine ⟨?_, ?_, ?_⟩
      · rw [List.map_cons, List.map_cons, hheapeid, hnode]
        exact List.Sublist.cons₂ _ i1
      · intro e he
        have h1 : e < (enhanceBaseElement st be obs obsP).2.nextElemId := by omega
        rw [i2 e h1]
        exact g1 e he
      · calc st.nextElemId ≤ (enhanceBaseElement st be obs obsP).2.nextElemId := g2
          _ ≤ _ := i3

/-- C8: `hydrate` resolves with the created elements in discovery order:
mapping the returned element list back to its host nodes yields a sublist
(in order) of the document-ordered placeholder list, whatever the state,
registry or options. -/
theorem C8_hydrate_order (st : InjState) (nids : List Nat) (obs obsP : Bool) :
    ((hydrate st nids obs obsP).1.map
      (fun e => (((hydrate st nids obs obsP).2).heap e).nodeId)).Sublist nids := by
  by_cases hemp : nids.isEmpty = true
  · rw [hydrate, if_pos hemp]
    exact List.nil_sublist nids
  · obtain ⟨p1, p2, p3, p4⟩ := parseRun_general nids st
    set st2 := (parseRun st nids).2 with hst2
    set bases := (parseRun st nids).1.filterMap id with hbases
    obtain ⟨q1, q2, q3⟩ := enhanceRun_general obs obsP bases st2
    have hh : hydrate st nids obs obsP =
        ((enhanceRun obs obsP st2 bases).1,
          addComponents (enhanceRun obs obsP st2 bases).2
            (enhanceRun obs obsP st2 bases).1) := by
      simp only [hydrate, if_neg hemp]
    rw [hh]
    exact q1.trans p1
